import Mathlib

/-!
Verification of the generation-orchestration core of the CodingBookAI
repository: the generation orchestrator (`src/app/api/generate/route.ts`),
the Gemini response parser (`src/lib/gemini.ts`), the SQLite persistence
layer (`src/lib/database.ts`), the rate limiter (`src/lib/rate-limit.ts`)
and the in-memory TTL cache (`src/lib/cache.ts`), shallowly embedded in
Lean 4.  Machine strings are Lean `String`s (lists of unicode scalar
chars); timestamps are `Int` milliseconds; external capabilities (the
Gemini text service, identifier generation, the wall clock) are explicit
oracle parameters of the embedding.
-/

namespace CodingBook

/-! ## Character constants

Named characters used by the JSON codec and the response-locating
regexes.  Braces and backtick are given by code point. -/

def openBrace : Char := Char.ofNat 123

def closeBrace : Char := Char.ofNat 125

def quoteChar : Char := Char.ofNat 34

def backslashChar : Char := Char.ofNat 92

def tickChar : Char := Char.ofNat 96

/-! ## JSON string/array codec (database.ts persistence format)

`saveQuestion` stores the list-typed fields of a question with
`JSON.stringify` and `convertDbToQuestion` reads them back with
`JSON.parse`.  The embedding implements the exact text format
`JSON.stringify` produces for strings, arrays of strings and the
three-field example object (double quotes, `\"`, `\\`, `\b`, `\t`,
`\n`, `\f`, `\r`, `\u00XX` for other control characters, no
whitespace), and a decoder implementing `JSON.parse` on that grammar. -/

def hexDigitChar (n : Nat) : Char :=
  if n < 10 then Char.ofNat (48 + n) else Char.ofNat (87 + n)

def hexVal (c : Char) : Option Nat :=
  if 48 ≤ c.toNat ∧ c.toNat ≤ 57 then some (c.toNat - 48)
  else if 97 ≤ c.toNat ∧ c.toNat ≤ 102 then some (c.toNat - 87)
  else if 65 ≤ c.toNat ∧ c.toNat ≤ 70 then some (c.toNat - 55)
  else none

/-- How `JSON.stringify` renders one character inside a string literal. -/
def escapeChar (c : Char) : List Char :=
  if c = quoteChar then [backslashChar, quoteChar]
  else if c = backslashChar then [backslashChar, backslashChar]
  else if c = Char.ofNat 8 then [backslashChar, 'b']
  else if c = Char.ofNat 9 then [backslashChar, 't']
  else if c = Char.ofNat 10 then [backslashChar, 'n']
  else if c = Char.ofNat 12 then [backslashChar, 'f']
  else if c = Char.ofNat 13 then [backslashChar, 'r']
  else if c.toNat < 32 then
    [backslashChar, 'u', '0', '0', hexDigitChar (c.toNat / 16), hexDigitChar (c.toNat % 16)]
  else [c]

def encodeContent (s : List Char) : List Char := (s.map escapeChar).flatten

/-- A full JSON string literal: `"` content `"`. -/
def encodeJString (s : List Char) : List Char :=
  quoteChar :: encodeContent s ++ [quoteChar]

/-- Single-character escapes accepted by `JSON.parse` after a backslash. -/
def unescapeChar (c : Char) : Option Char :=
  if c = quoteChar then some quoteChar
  else if c = backslashChar then some backslashChar
  else if c = '/' then some '/'
  else if c = 'b' then some (Char.ofNat 8)
  else if c = 't' then some (Char.ofNat 9)
  else if c = 'n' then some (Char.ofNat 10)
  else if c = 'f' then some (Char.ofNat 12)
  else if c = 'r' then some (Char.ofNat 13)
  else none

/-- Parse the body of a JSON string literal (the opening quote already
consumed); returns the decoded content and the remaining input. -/
def parseJString : List Char → Option (List Char × List Char)
  | [] => none
  | c :: rest =>
    if c = quoteChar then some ([], rest)
    else if c = backslashChar then
      match rest with
      | [] => none
      | e :: rest2 =>
        if e = 'u' then
          match rest2 with
          | h1 :: h2 :: h3 :: h4 :: rest3 =>
            match hexVal h1, hexVal h2, hexVal h3, hexVal h4 with
            | some a, some b, some c2, some d =>
              (parseJString rest3).map
                (fun p => (Char.ofNat (((a * 16 + b) * 16 + c2) * 16 + d) :: p.1, p.2))
            | _, _, _, _ => none
          | _ => none
        else
          match unescapeChar e with
          | some ch => (parseJString rest2).map (fun p => (ch :: p.1, p.2))
          | none => none
    else (parseJString rest).map (fun p => (c :: p.1, p.2))

theorem hexVal_hexDigitChar (n : Nat) (h : n < 16) : hexVal (hexDigitChar n) = some n := by
  interval_cases n <;> decide

/-- Decoding undoes the escaping of one character: parsing the escape
sequence of `c` followed by `t` parses `t` and prepends `c`. -/
theorem parseJString_escape (c : Char) (t : List Char) :
    parseJString (escapeChar c ++ t) =
      (parseJString t).map (fun p => (c :: p.1, p.2)) := by
  by_cases h1 : c = quoteChar
  · subst h1
    have e3 : escapeChar quoteChar ++ t = backslashChar :: quoteChar :: t := by
      simp +decide [escapeChar]
    rw [e3, parseJString.eq_def]
    simp +decide only [unescapeChar, if_pos, if_neg]
  by_cases h2 : c = backslashChar
  · subst h2
    have e3 : escapeChar backslashChar ++ t = backslashChar :: backslashChar :: t := by
      simp +decide [escapeChar]
    rw [e3, parseJString.eq_def]
    simp +decide only [unescapeChar, if_pos, if_neg]
  by_cases h3 : c = Char.ofNat 8
  · subst h3
    have e3 : escapeChar (Char.ofNat 8) ++ t = backslashChar :: 'b' :: t := by
      simp +decide [escapeChar]
    rw [e3, parseJString.eq_def]
    simp +decide only [unescapeChar, if_pos, if_neg]
  by_cases h4 : c = Char.ofNat 9
  · subst h4
    have e3 : escapeChar (Char.ofNat 9) ++ t = backslashChar :: 't' :: t := by
      simp +decide [escapeChar]
    rw [e3, parseJString.eq_def]
    simp +decide only [unescapeChar, if_pos, if_neg]
  by_cases h5 : c = Char.ofNat 10
  · subst h5
    have e3 : escapeChar (Char.ofNat 10) ++ t = backslashChar :: 'n' :: t := by
      simp +decide [escapeChar]
    rw [e3, parseJString.eq_def]
    simp +decide only [unescapeChar, if_pos, if_neg]
  by_cases h6 : c = Char.ofNat 12
  · subst h6
    have e3 : escapeChar (Char.ofNat 12) ++ t = backslashChar :: 'f' :: t := by
      simp +decide [escapeChar]
    rw [e3, parseJString.eq_def]
    simp +decide only [unescapeChar, if_pos, if_neg]
  by_cases h7 : c = Char.ofNat 13
  · subst h7
    have e3 : escapeChar (Char.ofNat 13) ++ t = backslashChar :: 'r' :: t := by
      simp +decide [escapeChar]
    rw [e3, parseJString.eq_def]
    simp +decide only [unescapeChar, if_pos, if_neg]
  by_cases h8 : c.toNat < 32
  · have e1 : hexVal (hexDigitChar (c.toNat / 16)) = some (c.toNat / 16) :=
      hexVal_hexDigitChar _ (by omega)
    have e2 : hexVal (hexDigitChar (c.toNat % 16)) = some (c.toNat % 16) :=
      hexVal_hexDigitChar _ (by omega)
    have e3 : escapeChar c ++ t = backslashChar :: 'u' :: '0' :: '0' ::
        hexDigitChar (c.toNat / 16) :: hexDigitChar (c.toNat % 16) :: t := by
      simp [escapeChar, h1, h2, h3, h4, h5, h6, h7, h8]
    have e4 : Char.ofNat (((0 * 16 + 0) * 16 + c.toNat / 16) * 16 + c.toNat % 16) = c := by
      rw [show ((0 * 16 + 0) * 16 + c.toNat / 16) * 16 + c.toNat % 16 = c.toNat from by omega,
        Char.ofNat_toNat]
    have e0 : hexVal '0' = some 0 := by decide
    rw [e3, parseJString.eq_def]
    simp +decide only [if_pos, if_neg, e0, e1, e2, e4]
  · have e3 : escapeChar c ++ t = c :: t := by
      simp [escapeChar, h1, h2, h3, h4, h5, h6, h7, h8]
    rw [e3, parseJString.eq_def]
    simp only [if_neg h1, if_neg h2]

/-- Decoding inverts encoding on string-literal content. -/
theorem parseJString_encodeContent (s rest : List Char) :
    parseJString (encodeContent s ++ quoteChar :: rest) = some (s, rest) := by
  induction s with
  | nil =>
    simp only [encodeContent, List.map_nil, List.flatten, List.nil_append]
    rw [parseJString.eq_def]
    simp
  | cons c s ih =>
    have : encodeContent (c :: s) = escapeChar c ++ encodeContent s := by
      simp [encodeContent]
    rw [this, List.append_assoc, parseJString_escape, ih]
    rfl

/-- A successful string-literal parse consumes at least one character. -/
theorem parseJString_length_aux : ∀ (n : Nat) (cs : List Char), cs.length ≤ n →
    ∀ s r, parseJString cs = some (s, r) → r.length < cs.length := by
  intro n
  induction n with
  | zero =>
    intro cs hlen s r h
    have : cs = [] := List.eq_nil_of_length_eq_zero (by omega)
    subst this
    simp [parseJString] at h
  | succ n ih =>
    intro cs hlen s r h
    cases cs with
    | nil => simp [parseJString] at h
    | cons c rest =>
      rw [parseJString.eq_def] at h
      repeat' split at h
      all_goals first
      | exact Option.noConfusion h
      | (cases h
         simp_all only [List.length_cons, List.cons.injEq]
         omega)
      | (obtain ⟨⟨s1, r1⟩, hps, hpr⟩ := Option.map_eq_some'.mp h
         cases hpr
         simp_all only [List.length_cons, List.cons.injEq]
         have hlt := ih _ (by omega) _ _ hps
         omega)

theorem parseJString_length (cs s r : List Char) (h : parseJString cs = some (s, r)) :
    r.length < cs.length :=
  parseJString_length_aux cs.length cs le_rfl s r h

/-- The `JSON.stringify` rendering of the elements of a string array,
comma separated, without the surrounding brackets. -/
def encodeElems : List String → List Char
  | [] => []
  | [s] => encodeJString s.toList
  | s :: s2 :: rest => encodeJString s.toList ++ ',' :: encodeElems (s2 :: rest)

/-- The `JSON.stringify` form of an array of strings: `[` elements `]`. -/
def encodeStringList (l : List String) : String :=
  String.mk ('[' :: encodeElems l ++ [']'])

/-- Parse a non-empty comma-separated sequence of JSON string literals
terminated by `]`; returns the strings and the input after the `]`. -/
def parseElems : List Char → Option (List String × List Char)
  | [] => none
  | c :: rest =>
    if c = quoteChar then
      match h : parseJString rest with
      | some (s, r) =>
        match r with
        | ',' :: r2 =>
          match parseElems r2 with
          | some (l, r3) => some (String.mk s :: l, r3)
          | none => none
        | ']' :: r2 => some ([String.mk s], r2)
        | _ => none
      | none => none
    else none
termination_by cs => cs.length
decreasing_by
  have hlt := parseJString_length _ _ _ h
  simp only [List.length_cons] at hlt ⊢
  omega

/-- Character-list form of `decodeStringList`. -/
def decodeStringListAux : List Char → Option (List String)
  | c :: rest =>
    if c = '[' then
      if rest = [']'] then some []
      else
        match parseElems rest with
        | some (l, []) => some l
        | _ => none
    else none
  | [] => none

/-- The `JSON.parse` of a string that must denote an array of strings
(`convertDbToQuestion` applies it to the stored `topics`,
`step_by_step_explanation` and `pseudocode` columns). -/
def decodeStringList (s : String) : Option (List String) :=
  decodeStringListAux s.toList

/-- Elements of a non-empty encoded array parse back to the original
strings, consuming through the closing bracket. -/
theorem parseElems_encode (l : List String) (hl : l ≠ []) (rest : List Char) :
    parseElems (encodeElems l ++ ']' :: rest) = some (l, rest) := by
  induction l with
  | nil => exact absurd rfl hl
  | cons s l ih =>
    cases l with
    | nil =>
      simp only [encodeElems, encodeJString, List.cons_append, List.append_assoc,
        List.nil_append]
      rw [parseElems, if_pos rfl]
      split
      next s1 r1 hps =>
        rw [parseJString_encodeContent] at hps
        cases hps
        rfl
      next hps =>
        rw [parseJString_encodeContent] at hps
        exact Option.noConfusion hps
    | cons s2 l2 =>
      have henc : encodeElems (s :: s2 :: l2) =
          encodeJString s.toList ++ ',' :: encodeElems (s2 :: l2) := rfl
      rw [henc]
      simp only [encodeJString, List.cons_append, List.append_assoc, List.nil_append]
      rw [parseElems, if_pos rfl]
      split
      next s1 r1 hps =>
        rw [parseJString_encodeContent] at hps
        cases hps
        simp only
        rw [ih (by simp)]
        rfl
      next hps =>
        rw [parseJString_encodeContent] at hps
        exact Option.noConfusion hps

theorem encodeElems_head (l : List String) (hl : l ≠ []) :
    ∃ t, encodeElems l = quoteChar :: t := by
  cases l with
  | nil => exact absurd rfl hl
  | cons s t =>
    cases t with
    | nil => exact ⟨encodeContent s.toList ++ [quoteChar], rfl⟩
    | cons s2 t2 =>
      exact ⟨(encodeContent s.toList ++ [quoteChar]) ++ ',' :: encodeElems (s2 :: t2), rfl⟩

/-- Decoding inverts encoding on arrays of strings. -/
theorem decodeStringList_encode (l : List String) :
    decodeStringList (encodeStringList l) = some l := by
  cases l with
  | nil => rfl
  | cons s t =>
    have h1 : (encodeStringList (s :: t)).toList = '[' :: (encodeElems (s :: t) ++ [']']) := rfl
    rw [decodeStringList, h1, decodeStringListAux, if_pos rfl]
    obtain ⟨tl, htl⟩ := encodeElems_head (s :: t) (by simp)
    have hne : ¬(encodeElems (s :: t) ++ [']'] = [']']) := by
      rw [htl]
      simp
    rw [if_neg hne,
      show encodeElems (s :: t) ++ [']'] = encodeElems (s :: t) ++ ']' :: [] from rfl,
      parseElems_encode (s :: t) (by simp) []]

theorem toList_mk (l : List Char) : (String.mk l).toList = l := rfl

/-- The three-field `example` object of a question
(`{input, output, explanation}` in types.ts). -/
structure ExampleBlock where
  input : String
  output : String
  explanation : String
deriving DecidableEq, Repr

/-- The `JSON.stringify` rendering of one `"key":"value"` field. -/
def encodeField (k v : String) : List Char :=
  quoteChar :: k.toList ++ quoteChar :: ':' :: encodeJString v.toList

/-- The `JSON.stringify` form of the example object: keys in declaration order,
no whitespace. -/
def encodeExampleBlock (e : ExampleBlock) : String :=
  String.mk (openBrace :: encodeField "input" e.input ++
    ',' :: encodeField "output" e.output ++
    ',' :: encodeField "explanation" e.explanation ++ [closeBrace])

def stripPrefixChars : List Char → List Char → Option (List Char)
  | [], cs => some cs
  | p :: ps, c :: cs => if c = p then stripPrefixChars ps cs else none
  | _ :: _, [] => none

/-- Parse `"k":"<string>"`, returning the decoded string content and
the rest of the input. -/
def parseKeyString (k : String) (cs : List Char) : Option (List Char × List Char) :=
  match stripPrefixChars (quoteChar :: k.toList ++ [quoteChar, ':', quoteChar]) cs with
  | some r => parseJString r
  | none => none

/-- Consume a separating comma. -/
def expectComma : List Char → Option (List Char)
  | ',' :: r => some r
  | _ => none

/-- Character-list form of `decodeExampleBlock`: `JSON.parse` restricted
to the exact object layout `encodeExampleBlock` produces. -/
def decodeExampleBlockAux : List Char → Option ExampleBlock
  | c :: rest =>
    if c = openBrace then
      (parseKeyString "input" rest).bind fun p1 =>
        (expectComma p1.2).bind fun r1b =>
          (parseKeyString "output" r1b).bind fun p2 =>
            (expectComma p2.2).bind fun r2b =>
              (parseKeyString "explanation" r2b).bind fun p3 =>
                if p3.2 = [closeBrace] then
                  some ⟨String.mk p1.1, String.mk p2.1, String.mk p3.1⟩
                else none
    else none
  | [] => none

def decodeExampleBlock (s : String) : Option ExampleBlock :=
  decodeExampleBlockAux s.toList

theorem stripPrefixChars_append (p cs : List Char) :
    stripPrefixChars p (p ++ cs) = some cs := by
  induction p with
  | nil => rfl
  | cons c ps ih => simp [stripPrefixChars, ih]

theorem parseKeyString_encodeField (k v : String) (t : List Char) :
    parseKeyString k (encodeField k v ++ t) = some (v.toList, t) := by
  have h1 : encodeField k v ++ t =
      (quoteChar :: k.toList ++ [quoteChar, ':', quoteChar]) ++
        (encodeContent v.toList ++ quoteChar :: t) := by
    simp [encodeField, encodeJString]
  rw [parseKeyString, h1, stripPrefixChars_append]
  simp only [parseJString_encodeContent]

/-- Decoding inverts encoding on the example object. -/
theorem decodeExampleBlock_encode (e : ExampleBlock) :
    decodeExampleBlock (encodeExampleBlock e) = some e := by
  obtain ⟨i, o, ex⟩ := e
  simp only [decodeExampleBlock, encodeExampleBlock, toList_mk, decodeExampleBlockAux]
  split
  next c rest heq =>
    cases heq
    rw [if_pos rfl]
    simp only [List.append_eq, List.append_assoc, List.cons_append,
      parseKeyString_encodeField, Option.some_bind, expectComma]
    rfl
  next heq => exact absurd heq (by simp)

/-! ## Gemini response parser (gemini.ts, generateQuestionMetadata lines 80-113)

The raw model response is cleaned with `trim`, an object literal is
located with the greedy regex `/\x7b[\s\S]*\x7d/`, falling back to the
fenced-block regex  ```(?:json)?\s*(\x7b[\s\S]*\x7d)\s*``` , decoded
with `JSON.parse`, checked for the mandatory `title`, `difficulty` and
`description` fields by JS truthiness, and the optional list fields are
coerced with `Array.isArray`.  `JSON.parse` on the located text is the
platform decoder; the embedding takes it as an explicit `decode`
parameter.  JSON values are modelled by `Json` (numbers as `Int`;
`NaN`, which JSON.parse never produces, is not represented). -/

inductive Json where
  | null
  | bool (b : Bool)
  | num (n : Int)
  | str (s : String)
  | arr (elems : List Json)
  | obj (fields : List (String × Json))

/-- First-match association-list lookup of an object field. -/
def lookupField : List (String × Json) → String → Option Json
  | [], _ => none
  | (k, v) :: rest, key => if k = key then some v else lookupField rest key

/-- JS property read `j.k`: `undefined` (`none`) on non-objects. -/
def getField (j : Json) (k : String) : Option Json :=
  match j with
  | .obj fields => lookupField fields k
  | _ => none

/-- JS truthiness of `j.k` where `none` is `undefined`. -/
def truthy : Option Json → Bool
  | none => false
  | some .null => false
  | some (.bool b) => b
  | some (.num n) => n != 0
  | some (.str s) => s != ""
  | some (.arr _) => true
  | some (.obj _) => true

def setFieldList (fields : List (String × Json)) (k : String) (v : Json) :
    List (String × Json) :=
  match fields with
  | [] => [(k, v)]
  | (k0, v0) :: rest =>
    if k0 = k then (k0, v) :: rest else (k0, v0) :: setFieldList rest k v

/-- JS property write `j.k = v` (JSON.parse results are plain objects;
on a non-object the write is unreachable in the modelled code path). -/
def setField (j : Json) (k : String) (v : Json) : Json :=
  match j with
  | .obj fields => .obj (setFieldList fields k v)
  | _ => j

/-- JS property write `j.k = undefined`, which makes the field absent
for all subsequent JSON-semantics reads; modelled as removal. -/
def removeField (j : Json) (k : String) : Json :=
  match j with
  | .obj fields => .obj (fields.filter (fun p => p.1 ≠ k))
  | _ => j

def hasKey (j : Json) (k : String) : Bool := (getField j k).isSome

/-! ### Locating the object literal -/

/-- JS `\s` on the ASCII range (space, tab, newline, carriage return,
vertical tab, form feed; the Unicode space classes are not modelled). -/
def isWsChar (c : Char) : Bool :=
  c = ' ' || c = Char.ofNat 9 || c = Char.ofNat 10 || c = Char.ofNat 13 ||
    c = Char.ofNat 11 || c = Char.ofNat 12

/-- JS `String.prototype.trim` on the modelled (ASCII) whitespace:
drop leading and trailing whitespace characters. -/
def trimChars (cs : List Char) : List Char :=
  ((cs.dropWhile isWsChar).reverse.dropWhile isWsChar).reverse

def strTrim (s : String) : String := String.mk (trimChars s.toList)

/-- Last prefix of the input ending at a `\x7d`: `cs = result ++ tail`
with `result` ending in `\x7d` and `tail` brace-free, or `none` when no
`\x7d` occurs.  This is the backtracking of the greedy `[\s\S]*\x7d`. -/
def takeToLastClose (cs : List Char) : Option (List Char) :=
  match cs.reverse.dropWhile (fun c => c ≠ closeBrace) with
  | [] => none
  | l => some l.reverse

/-- The greedy regex `/\x7b[\s\S]*\x7d/`: from the first `\x7b` to the
last `\x7d` after it; `none` when the regex does not match. -/
def greedyBrace (cs : List Char) : Option (List Char) :=
  match cs.dropWhile (fun c => c ≠ openBrace) with
  | [] => none
  | c :: rest =>
    match takeToLastClose rest with
    | none => none
    | some mid => some (c :: mid)

def startsWith3Ticks (cs : List Char) : Bool :=
  match cs with
  | a :: b :: c :: _ => a = tickChar && b = tickChar && c = tickChar
  | _ => false

def startsWithJson (cs : List Char) : Bool :=
  match cs with
  | a :: b :: c :: d :: _ => a = 'j' && b = 's' && c = 'o' && d = 'n'
  | _ => false

/-- After the captured closing `\x7d`: `\s*` then three backticks. -/
def wsThenTicks (cs : List Char) : Bool :=
  startsWith3Ticks (cs.dropWhile isWsChar)

/-- Greedy `[\s\S]*\x7d` inside the fenced pattern: the longest prefix
ending at a `\x7d` that is followed by `\s*` and three backticks. -/
def captureClose : List Char → Option (List Char)
  | [] => none
  | c :: rest =>
    match captureClose rest with
    | some tail => some (c :: tail)
    | none => if c = closeBrace ∧ wsThenTicks rest then some [c] else none

/-- Try the fenced-block regex anchored at the start of `cs`, returning
capture group 1. -/
def fencedCaptureAt (cs : List Char) : Option (List Char) :=
  if startsWith3Ticks cs then
    let r0 := cs.drop 3
    let r1 := if startsWithJson r0 then r0.drop 4 else r0
    let r2 := r1.dropWhile isWsChar
    match r2 with
    | c :: rest =>
      if c = openBrace then (captureClose rest).map (fun mid => c :: mid) else none
    | [] => none
  else none

/-- The fenced-block regex  ```(?:json)?\s*(\x7b[\s\S]*\x7d)\s*```
searched left to right over the input, returning capture group 1 of
the first position at which the whole pattern matches. -/
def fencedCapture : List Char → Option (List Char)
  | [] => none
  | c :: rest =>
    match fencedCaptureAt (c :: rest) with
    | some m => some m
    | none => fencedCapture rest

/-- Steps (1)-(3) of the parser: greedy brace match on the trimmed
text, then the fenced-block fallback. -/
def locateJson (cs : List Char) : Option (List Char) :=
  match greedyBrace cs with
  | some m => some m
  | none => fencedCapture cs

def requiredPresent (j : Json) : Bool :=
  truthy (getField j "title") && truthy (getField j "difficulty") &&
    truthy (getField j "description")

/-- The coercion `Array.isArray(x) ? x : []`: the value itself when it is an array,
the empty array otherwise (also when the field is absent). -/
def asArrList : Option Json → List Json
  | some (.arr xs) => xs
  | _ => []

/-- The coercion `Array.isArray(x) ? x : undefined`. -/
def asArrOpt : Option Json → Option Json
  | some (.arr xs) => some (.arr xs)
  | _ => none

/-- The `Array.isArray(x) ? x : []` coercions of `topics` and
`step_by_step_explanation` and the `Array.isArray(x) ? x : undefined`
coercion of `pseudocode` (gemini.ts lines 104-111). -/
def coerceArrays (j : Json) : Json :=
  let t : Json := .arr (asArrList (getField j "topics"))
  let s : Json := .arr (asArrList (getField j "step_by_step_explanation"))
  let j1 := setField (setField j "topics" t) "step_by_step_explanation" s
  match asArrOpt (getField j "pseudocode") with
  | some v => setField j1 "pseudocode" v
  | none => removeField j1 "pseudocode"

/-- The response-parsing tail of `generateQuestionMetadata`: trim,
locate the object literal, decode it (`decode` stands for
`JSON.parse`; `none` models a decode exception), check the mandatory
fields, coerce the optional list fields.  Every `.error` case is a
thrown `GeminiError` (or the `JSON.parse` exception) in the source. -/
def parseGeminiResponse (decode : String → Option Json) (result : String) :
    Except String Json :=
  match locateJson (strTrim result).toList with
  | none => .error "Invalid response format from Gemini API"
  | some m =>
    match decode (String.mk m) with
    | none => .error "Unexpected token in JSON"
    | some parsed =>
      if requiredPresent parsed then .ok (coerceArrays parsed)
      else .error "Incomplete response from Gemini API"

/-! ### Unreachability of the fenced-block fallback (claim C10) -/

theorem greedyBrace_cons_ne (x : Char) (l : List Char) (hx : ¬ x = openBrace) :
    greedyBrace (x :: l) = greedyBrace l := by
  simp [greedyBrace, List.dropWhile_cons, hx]

theorem takeToLastClose_isSome (cs : List Char) (h : closeBrace ∈ cs) :
    ∃ m, takeToLastClose cs = some m := by
  cases hd : cs.reverse.dropWhile (fun c => c ≠ closeBrace) with
  | nil =>
    exfalso
    have hall := List.dropWhile_eq_nil_iff.mp hd
    have := hall closeBrace (List.mem_reverse.mpr h)
    simp at this
  | cons y t =>
    refine ⟨(y :: t).reverse, ?_⟩
    simp only [takeToLastClose, hd]

theorem greedyBrace_isSome_of_pair (a b c : List Char) :
    ∃ m, greedyBrace (a ++ openBrace :: (b ++ closeBrace :: c)) = some m := by
  induction a with
  | nil =>
    simp only [List.nil_append]
    obtain ⟨m, hm⟩ := takeToLastClose_isSome (b ++ closeBrace :: c) (by simp)
    exact ⟨openBrace :: m, by simp [greedyBrace, List.dropWhile_cons, hm]⟩
  | cons x a ih =>
    by_cases hx : x = openBrace
    · subst hx
      obtain ⟨m, hm⟩ :=
        takeToLastClose_isSome (a ++ openBrace :: (b ++ closeBrace :: c)) (by simp)
      exact ⟨openBrace :: m, by simp [greedyBrace, List.dropWhile_cons, hm]⟩
    · rw [List.cons_append, greedyBrace_cons_ne x _ hx]
      exact ih

theorem captureClose_mem (cs mid : List Char) (h : captureClose cs = some mid) :
    closeBrace ∈ cs := by
  induction cs generalizing mid with
  | nil => simp [captureClose] at h
  | cons c rest ih =>
    cases hr : captureClose rest with
    | some tail => exact List.mem_cons_of_mem _ (ih _ hr)
    | none =>
      simp only [captureClose, hr] at h
      split at h
      · next hcond => exact hcond.1 ▸ List.mem_cons_self _ _
      · exact Option.noConfusion h

theorem fencedCaptureAt_pair (cs m : List Char) (h : fencedCaptureAt cs = some m) :
    ∃ a b c, cs = a ++ openBrace :: (b ++ closeBrace :: c) := by
  simp only [fencedCaptureAt] at h
  split at h
  · set r2 := ((if startsWithJson (cs.drop 3) then (cs.drop 3).drop 4
      else cs.drop 3).dropWhile isWsChar) with hr2def
    have hsuf : r2 <:+ cs := by
      refine List.IsSuffix.trans (List.dropWhile_suffix _) ?_
      by_cases hj : startsWithJson (cs.drop 3)
      · rw [if_pos hj]
        exact List.IsSuffix.trans (List.drop_suffix _ _) (List.drop_suffix _ _)
      · rw [if_neg hj]
        exact List.drop_suffix _ _
    cases hr2 : r2 with
    | nil => rw [hr2] at h; exact Option.noConfusion h
    | cons c0 rest =>
      rw [hr2] at h hsuf
      split at h
      next c1 rest1 hc0 =>
        injection hc0 with hce hre
        subst hce
        subst hre
        split at h
        next hopen =>
          subst hopen
          obtain ⟨mid, hmid, _⟩ := Option.map_eq_some'.mp h
          have hmem := captureClose_mem _ mid hmid
          obtain ⟨pre, hpre⟩ := hsuf
          obtain ⟨b, c, hbc⟩ := List.append_of_mem hmem
          exact ⟨pre, b, c, by rw [← hpre, hbc]⟩
        next => exact Option.noConfusion h
      next hnil => exact absurd hnil (by simp)
  · exact Option.noConfusion h

theorem fencedCapture_pair (cs m : List Char) (h : fencedCapture cs = some m) :
    ∃ a b c, cs = a ++ openBrace :: (b ++ closeBrace :: c) := by
  induction cs with
  | nil => simp [fencedCapture] at h
  | cons x rest ih =>
    cases hat : fencedCaptureAt (x :: rest) with
    | some mm => exact fencedCaptureAt_pair _ mm hat
    | none =>
      simp only [fencedCapture, hat] at h
      obtain ⟨a, b, c, hdec⟩ := ih h
      exact ⟨x :: a, b, c, by rw [hdec]; rfl⟩

/-- If the greedy brace regex fails on a text, the fenced-block regex
fails on it as well: the fallback is unreachable as a recovery path. -/
theorem fencedCapture_none_of_greedyBrace_none (cs : List Char)
    (h : greedyBrace cs = none) : fencedCapture cs = none := by
  cases hf : fencedCapture cs with
  | none => rfl
  | some m =>
    obtain ⟨a, b, c, rfl⟩ := fencedCapture_pair cs m hf
    obtain ⟨mm, hmm⟩ := greedyBrace_isSome_of_pair a b c
    exact absurd (hmm.symm.trans h) (by simp)

/-! ## Data model (types.ts) and persistence (database.ts)

`Question` is the Artifact record of types.ts.  The `example` field is
named `exampleBlock` because `example` is a Lean keyword.  String
lengths count unicode scalar values (JS counts UTF-16 units; the two
agree outside the astral planes). -/

structure Question where
  id : String
  title : String
  difficulty : String
  topics : List String
  description : String
  exampleBlock : ExampleBlock
  solution_python : String
  step_by_step_explanation : List String
  pseudocode : Option (List String)
  created_at : String
  updated_at : Option String
deriving DecidableEq, Repr

/-- The generated metadata, `Omit<Question, 'id'|'created_at'|'updated_at'>`:
what `generateQuestionMetadata` resolves with on success. -/
structure Metadata where
  title : String
  difficulty : String
  topics : List String
  description : String
  exampleBlock : ExampleBlock
  solution_python : String
  step_by_step_explanation : List String
  pseudocode : Option (List String)
deriving DecidableEq, Repr

/-- One row of the `questions` table: list-typed fields stored as JSON
text (`DatabaseQuestion` in types.ts). -/
structure DatabaseQuestion where
  id : String
  title : String
  difficulty : String
  topics : String
  description : String
  exampleBlock : String
  solution_python : String
  step_by_step_explanation : String
  pseudocode : Option String
  created_at : String
  updated_at : Option String
deriving DecidableEq, Repr

/-- The zod `QuestionSchema` constraints the spec's data model lists:
difficulty enum, 1-10 topics, 10-2000 character description, non-empty
example fields, ≥ 1 explanation step (id/title/solution non-empty).
The `created_at` ISO-datetime format check is not modelled. -/
def QuestionValid (q : Question) : Bool :=
  decide (1 ≤ q.id.length) && decide (1 ≤ q.title.length) && decide (q.title.length ≤ 200) &&
    (q.difficulty == "Easy" || q.difficulty == "Medium" || q.difficulty == "Hard") &&
    decide (1 ≤ q.topics.length) && decide (q.topics.length ≤ 10) &&
    decide (10 ≤ q.description.length) && decide (q.description.length ≤ 2000) &&
    (q.exampleBlock.input != "") && (q.exampleBlock.output != "") &&
    (q.exampleBlock.explanation != "") && (q.solution_python != "") &&
    decide (1 ≤ q.step_by_step_explanation.length)

def difficultyOk (d : String) : Bool :=
  d == "Easy" || d == "Medium" || d == "Hard"

/-- Row conversion done by `saveQuestion`'s INSERT: JSON-encode the
list fields, keep `created_at`, set `updated_at := now`. -/
def toRow (q : Question) (now : String) : DatabaseQuestion :=
  { id := q.id
    title := q.title
    difficulty := q.difficulty
    topics := encodeStringList q.topics
    description := q.description
    exampleBlock := encodeExampleBlock q.exampleBlock
    solution_python := q.solution_python
    step_by_step_explanation := encodeStringList q.step_by_step_explanation
    pseudocode := q.pseudocode.map encodeStringList
    created_at := q.created_at
    updated_at := some now }

/-- Model of `saveQuestion` (database.ts lines 108-127): `INSERT OR REPLACE`
with primary key `id` and `UNIQUE(title) ON CONFLICT REPLACE` —
modelled as removing conflicting rows then appending — guarded by the
schema's `CHECK (difficulty IN ('Easy','Medium','Hard'))`; a failed
check raises `DatabaseError` (`.error`). -/
def saveQuestion (q : Question) (now : String) (db : List DatabaseQuestion) :
    Except String (List DatabaseQuestion) :=
  if difficultyOk q.difficulty then
    .ok (db.filter (fun r => r.id ≠ q.id && r.title ≠ q.title) ++ [toRow q now])
  else .error "Failed to save question: CHECK constraint failed: difficulty"

/-- Model of `convertDbToQuestion` (database.ts lines 88-106): JSON.parse the
list columns; any parse failure raises `DatabaseError`.  `row.pseudocode
? JSON.parse(row.pseudocode) : undefined` and `row.updated_at ||
undefined` treat the empty string as falsy. -/
def convertDbToQuestion (row : DatabaseQuestion) : Except String Question :=
  match decodeStringList row.topics with
  | none => .error "Failed to parse question data"
  | some topics =>
    match decodeExampleBlock row.exampleBlock with
    | none => .error "Failed to parse question data"
    | some ex =>
      match decodeStringList row.step_by_step_explanation with
      | none => .error "Failed to parse question data"
      | some steps =>
        let pseudo : Except String (Option (List String)) :=
          match row.pseudocode with
          | none => .ok none
          | some p =>
            if p = "" then .ok none
            else
              match decodeStringList p with
              | none => .error "Failed to parse question data"
              | some pl => .ok (some pl)
        match pseudo with
        | .error e => .error e
        | .ok pc =>
          .ok { id := row.id
                title := row.title
                difficulty := row.difficulty
                topics := topics
                description := row.description
                exampleBlock := ex
                solution_python := row.solution_python
                step_by_step_explanation := steps
                pseudocode := pc
                created_at := row.created_at
                updated_at := match row.updated_at with
                  | none => none
                  | some u => if u = "" then none else some u }

/-- Model of `getQuestion` (database.ts lines 129-140): guard on a falsy id,
`SELECT * WHERE id = ?` (first row), convert. -/
def getQuestion (id : String) (db : List DatabaseQuestion) :
    Except String (Option Question) :=
  if id = "" then .ok none
  else
    match db.find? (fun r => r.id = id) with
    | none => .ok none
    | some row =>
      match convertDbToQuestion row with
      | .error e => .error e
      | .ok q => .ok (some q)

/-! ## Request validation (validation.ts) -/

/-- Model of `validateAndSanitizeTitle` (validation.ts lines 111-127): reject a
falsy title, trim, reject empty or over-long; each `.error` is a thrown
`ValidationError` with that message. -/
def validateAndSanitizeTitle (title : String) : Except String String :=
  if title = "" then .error "Title is required"
  else
    let sanitized := strTrim title
    if sanitized.length = 0 then .error "Title cannot be empty"
    else if sanitized.length > 200 then .error "Title cannot exceed 200 characters"
    else .ok sanitized

/-- The zod `GenerateRequestSchema` (types.ts lines 160-162): an array
of 1 to 20 strings, each of 1 to 200 characters. -/
def validGenerateRequest (titles : List String) : Bool :=
  decide (1 ≤ titles.length) && decide (titles.length ≤ 20) &&
    titles.all (fun t => decide (1 ≤ t.length) && decide (t.length ≤ 200))

/-! ## Generation orchestrator (app/api/generate/route.ts)

The external effects of one pipeline run are supplied by an `Env`
oracle: `gen i t` is the settled result of
`generateQuestionMetadata t` (retry loop included) for the title at
position `i` — `.error` is the message of the `GeminiError` it rejects
with; `idOf i` is the `generateId()` value; `createdAt i` and
`saveNow i` are the two `new Date().toISOString()` readings. -/

structure Env where
  gen : Nat → String → Except String Metadata
  idOf : Nat → String
  createdAt : Nat → String
  saveNow : Nat → String

def MAX_CONCURRENT_GENERATIONS : Nat := 3

def GENERATION_DELAY : Nat := 1000

/-- The ledger (`GenerationStatus` in types.ts). -/
structure GenerationStatus where
  total : Nat
  completed : Nat
  failed : Nat
  errors : List String
deriving DecidableEq, Repr

/-- Mutable state of one POST run: the ledger, the persisted rows and
the `generatedQuestions` accumulator. -/
structure OrchAcc where
  status : GenerationStatus
  db : List DatabaseQuestion
  generated : List Question
deriving DecidableEq, Repr

inductive TitleOutcome where
  | success (q : Question)
  | failure (msg : String)
deriving DecidableEq, Repr

/-- The per-title task body (route.ts lines 52-89): sanitize, generate,
assemble the question, check `!title || !description ||
!solution_python`, save.  The stagger sleep has no effect on the
outcome and lives in the trace model below. -/
def processTitle (env : Env) (ix : Nat) (db : List DatabaseQuestion) (title : String) :
    TitleOutcome × List DatabaseQuestion :=
  match validateAndSanitizeTitle title with
  | .error m => (.failure m, db)
  | .ok sanitizedTitle =>
    match env.gen ix sanitizedTitle with
    | .error m => (.failure m, db)
    | .ok md =>
      let q : Question :=
        { id := env.idOf ix
          title := sanitizedTitle
          difficulty := md.difficulty
          topics := md.topics
          description := md.description
          exampleBlock := md.exampleBlock
          solution_python := md.solution_python
          step_by_step_explanation := md.step_by_step_explanation
          pseudocode := md.pseudocode
          created_at := env.createdAt ix
          updated_at := none }
      if q.title = "" || q.description = "" || q.solution_python = "" then
        (.failure "Generated question is incomplete", db)
      else
        match saveQuestion q (env.saveNow ix) db with
        | .error m => (.failure m, db)
        | .ok db2 => (.success q, db2)

/-- Ledger/state update for one settled task (route.ts lines 76-88).
Within a batch the tasks run concurrently, which can only permute the
order of `errors` entries; the counters commute, and the embedding
fixes the in-batch order to title order. -/
def recordOutcome (acc : OrchAcc) (title : String) :
    TitleOutcome × List DatabaseQuestion → OrchAcc
  | (.success q, db2) =>
    { acc with
      db := db2
      generated := acc.generated ++ [q]
      status := { acc.status with completed := acc.status.completed + 1 } }
  | (.failure m, _) =>
    { acc with
      status := { acc.status with
        failed := acc.status.failed + 1
        errors := acc.status.errors ++ [s!"Failed to generate \"{title}\": {m}"] } }

def runTitles (env : Env) : Nat → OrchAcc → List String → OrchAcc
  | _, acc, [] => acc
  | ix, acc, t :: rest =>
    runTitles env (ix + 1) (recordOutcome acc t (processTitle env ix acc.db t)) rest

/-- The `titles.slice(i, i + MAX_CONCURRENT_GENERATIONS)` chunking
(route.ts lines 46-49, with `MAX_CONCURRENT_GENERATIONS = 3`). -/
def chunk3 {α : Type} : List α → List (List α)
  | [] => []
  | [a] => [[a]]
  | [a, b] => [[a, b]]
  | a :: b :: c :: rest => [a, b, c] :: chunk3 rest

def runBatches (env : Env) : Nat → OrchAcc → List (List String) → OrchAcc
  | _, acc, [] => acc
  | ix, acc, b :: rest => runBatches env (ix + b.length) (runTitles env ix acc b) rest

/-- The JSON body the route responds with, plus the HTTP status. -/
structure ApiResponse where
  status : Nat
  success : Bool
  error : Option String
  message : Option String
  data : Option GenerationStatus
deriving DecidableEq, Repr

def successMessage (st : GenerationStatus) : String :=
  let c := st.completed
  let n := st.total
  let f := st.failed
  s!"Successfully generated {c} out of {n} questions" ++
    (if st.failed > 0 then s!" ({f} failed)" else "")

/-- Model of `POST /api/generate` (route.ts lines 11-126) on an already-parsed
body `titles`, returning the response and the final run state.  A
zod failure in `validateGenerateRequest` is the `ValidationError`
caught at line 130 (status 400); the in-route length checks at lines
16-34 are unreachable behind it but modelled. -/
def post (env : Env) (titles : List String) : ApiResponse × OrchAcc :=
  let emptyAcc : OrchAcc := ⟨⟨0, 0, 0, []⟩, [], []⟩
  if ¬ validGenerateRequest titles then
    (⟨400, false, some "Invalid generate request", none, none⟩, emptyAcc)
  else if titles.length = 0 then
    (⟨400, false, some "At least one question title is required", none, none⟩, emptyAcc)
  else if titles.length > 20 then
    (⟨400, false, some "Maximum 20 questions can be generated at once", none, none⟩, emptyAcc)
  else
    let acc0 : OrchAcc := ⟨⟨titles.length, 0, 0, []⟩, [], []⟩
    let acc := runBatches env 0 acc0 (chunk3 titles)
    let st := acc.status
    if st.completed = 0 then
      (⟨500, false, some "Failed to generate any questions", none, some st⟩, acc)
    else if st.failed > 0 then
      (⟨207, false, none, some (successMessage st), some st⟩, acc)
    else
      (⟨200, true, none, some (successMessage st), some st⟩, acc)

/-! ## Batch scheduling trace model (route.ts lines 46-99)

Each per-title task is an async function: it sanitizes, staggers
(`if (batchIndex > 0) await sleep(GENERATION_DELAY)`), then spans the
generation call.  Within one batch the tasks run concurrently under
`Promise.all`, so the batch trace is an arbitrary interleaving of the
task traces; the batch loop awaits `Promise.all` before the next
iteration and sleeps `GENERATION_DELAY * 2` between batches (keyed on
`batches.indexOf(batch) < batches.length - 1`). -/

inductive Ev where
  | sleepEv (ms : Nat)
  | callStart (i : Nat)
  | callEnd (i : Nat)
deriving DecidableEq, Repr

def callIx : Ev → Option Nat
  | .callStart i => some i
  | .callEnd i => some i
  | .sleepEv _ => none

/-- Observable events of the task for title `t`, in-batch index `bIx`,
global index `gIx`.  A title failing sanitization throws before the
stagger and the call, producing no events. -/
def taskTrace (t : String) (bIx gIx : Nat) : List Ev :=
  match validateAndSanitizeTitle t with
  | .error _ => []
  | .ok _ =>
    (if bIx > 0 then [Ev.sleepEv GENERATION_DELAY] else []) ++
      [Ev.callStart gIx, Ev.callEnd gIx]

def taskTraces (six : Nat) : Nat → List String → List (List Ev)
  | _, [] => []
  | j, t :: rest => taskTrace t j (six + j) :: taskTraces six (j + 1) rest

/-- Interleaving relation `Il ls out`: `out` interleaves the sequences `ls` — each
step emits the head of one sequence, and all sequences are consumed. -/
inductive Il : List (List Ev) → List Ev → Prop where
  | done (ls : List (List Ev)) : (∀ l ∈ ls, l = []) → Il ls []
  | step (ls : List (List Ev)) (k : Nat) (hk : k < ls.length) (e : Ev) (tl out : List Ev) :
      ls.get ⟨k, hk⟩ = e :: tl → Il (ls.set k tl) out → Il ls (e :: out)

/-- The trace relation of the batch loop from batch list `bs` (a
suffix of `all`) at global title offset `six`. -/
def BatchesTrace (all : List (List String)) : Nat → List (List String) → List Ev → Prop
  | _, [], tr => tr = []
  | six, b :: rest, tr =>
    ∃ btr rtr, Il (taskTraces six 0 b) btr ∧
      BatchesTrace all (six + b.length) rest rtr ∧
      tr = btr ++
        (if all.indexOf b < all.length - 1 then [Ev.sleepEv (GENERATION_DELAY * 2)] else []) ++
        rtr

/-- All traces the body of POST can produce for `titles` once the
batches are formed. -/
def OrchTrace (titles : List String) (tr : List Ev) : Prop :=
  BatchesTrace (chunk3 titles) 0 (chunk3 titles) tr

/-! ## Rate limiter (rate-limit.ts) -/

structure RateLimitConfig where
  windowMs : Int
  maxRequests : Nat
deriving DecidableEq, Repr

/-- Per-client record: request timestamps and `lastReset`, which
`isAllowed` sets only when it creates the record. -/
structure RateLimitInfo where
  requests : List Int
  lastReset : Int
deriving DecidableEq, Repr

abbrev RLClients := List (String × RateLimitInfo)

def rlLookup (clients : RLClients) (id : String) : Option RateLimitInfo :=
  match clients with
  | [] => none
  | (k, v) :: rest => if k = id then some v else rlLookup rest id

def rlSet (clients : RLClients) (id : String) (info : RateLimitInfo) : RLClients :=
  match clients with
  | [] => [(id, info)]
  | (k, v) :: rest => if k = id then (k, info) :: rest else (k, v) :: rlSet rest id info

structure RateLimitResult where
  allowed : Bool
  remaining : Nat
  resetTime : Int
deriving DecidableEq, Repr

/-- Model of `RateLimiter.isAllowed` (rate-limit.ts lines 27-59): create the
record if absent (lastReset := now), prune timestamps `≤ now - window`,
admit iff the pruned count is strictly below the max, append `now`
only on admission. -/
def isAllowed (cfg : RateLimitConfig) (clients : RLClients) (clientId : String) (now : Int) :
    RateLimitResult × RLClients :=
  let windowStart := now - cfg.windowMs
  let info := (rlLookup clients clientId).getD ⟨[], now⟩
  let pruned := info.requests.filter (fun t => t > windowStart)
  let allowed := pruned.length < cfg.maxRequests
  let requests2 := if allowed then pruned ++ [now] else pruned
  let remaining := cfg.maxRequests - requests2.length
  (⟨decide allowed, remaining, windowStart + cfg.windowMs⟩,
    rlSet clients clientId ⟨requests2, info.lastReset⟩)

/-- Model of `RateLimiter.cleanup` (rate-limit.ts lines 65-74): delete every
record whose `lastReset` is before `now - 2 * window`. -/
def cleanup (cfg : RateLimitConfig) (clients : RLClients) (now : Int) : RLClients :=
  clients.filter (fun p => ¬ (p.2.lastReset < now - cfg.windowMs * 2))

/-- Fold a sequence of same-client calls from an initial state,
collecting each call's admission flag. -/
def rlRun (cfg : RateLimitConfig) (clientId : String) :
    RLClients → List Int → List Bool × RLClients
  | clients, [] => ([], clients)
  | clients, t :: ts =>
    let (r, clients2) := isAllowed cfg clients clientId t
    let (flags, clients3) := rlRun cfg clientId clients2 ts
    (r.allowed :: flags, clients3)

/-! ## TTL cache (cache.ts) -/

structure CacheItem (V : Type) where
  data : V
  timestamp : Int
  ttl : Nat
deriving DecidableEq, Repr

abbrev CacheMap (V : Type) := List (String × CacheItem V)

def defaultTTL : Nat := 5 * 60 * 1000

def cacheLookup {V : Type} (c : CacheMap V) (k : String) : Option (CacheItem V) :=
  match c with
  | [] => none
  | (k0, v) :: rest => if k0 = k then some v else cacheLookup rest k

def cacheSetEntry {V : Type} (c : CacheMap V) (k : String) (item : CacheItem V) : CacheMap V :=
  match c with
  | [] => [(k, item)]
  | (k0, v) :: rest =>
    if k0 = k then (k0, item) :: rest else (k0, v) :: cacheSetEntry rest k item

def cacheDelete {V : Type} (c : CacheMap V) (k : String) : CacheMap V :=
  c.filter (fun p => p.1 ≠ k)

/-- Model of `MemoryCache.set` (cache.ts lines 12-18): unconditional overwrite,
storing the write time and the ttl. -/
def mcSet {V : Type} (c : CacheMap V) (k : String) (v : V) (ttl : Nat) (now : Int) :
    CacheMap V :=
  cacheSetEntry c k ⟨v, now, ttl⟩

/-- Model of `MemoryCache.get` (cache.ts lines 20-34): miss on absence; an entry
with `now - timestamp > ttl` is deleted and reported absent. -/
def mcGet {V : Type} (c : CacheMap V) (k : String) (now : Int) : Option V × CacheMap V :=
  match cacheLookup c k with
  | none => (none, c)
  | some item =>
    if now - item.timestamp > (item.ttl : Int) then (none, cacheDelete c k)
    else (some item.data, c)

/-- Model of `MemoryCache.has` (cache.ts lines 36-50): same expiry check and
lazy eviction as `get`. -/
def mcHas {V : Type} (c : CacheMap V) (k : String) (now : Int) : Bool × CacheMap V :=
  match cacheLookup c k with
  | none => (false, c)
  | some item =>
    if now - item.timestamp > (item.ttl : Int) then (false, cacheDelete c k)
    else (true, c)

/-! ## Support lemmas for the state-machine claims -/

theorem rlLookup_rlSet (clients : RLClients) (id : String) (info : RateLimitInfo) :
    rlLookup (rlSet clients id info) id = some info := by
  induction clients with
  | nil => simp [rlSet, rlLookup]
  | cons p rest ih =>
    by_cases h : p.1 = id
    · simp [rlSet, rlLookup, h]
    · simp [rlSet, rlLookup, h, ih]

theorem cacheLookup_setEntry {V : Type} (c : CacheMap V) (k : String) (item : CacheItem V) :
    cacheLookup (cacheSetEntry c k item) k = some item := by
  induction c with
  | nil => simp [cacheSetEntry, cacheLookup]
  | cons p rest ih =>
    by_cases h : p.1 = k
    · simp [cacheSetEntry, cacheLookup, h]
    · simp [cacheSetEntry, cacheLookup, h, ih]

theorem cacheLookup_delete {V : Type} (c : CacheMap V) (k : String) :
    cacheLookup (cacheDelete c k) k = none := by
  induction c with
  | nil => rfl
  | cons p rest ih =>
    by_cases h : p.1 = k
    · simpa [cacheDelete, h] using ih
    · simpa [cacheDelete, cacheLookup, h] using ih

theorem cacheDelete_setEntry_lookup {V : Type} (c : CacheMap V) (k : String)
    (item : CacheItem V) :
    cacheLookup (cacheDelete (cacheSetEntry c k item) k) k = none :=
  cacheLookup_delete _ k

/-- Claim C6: on every call and every prior state, `isAllowed` prunes
the client's timestamps that are not strictly newer than
`now - window`, admits iff the pruned count is strictly below
`maxRequests` (exactly at the max it rejects), and appends `now` to the
record only on admission; concretely, with max 5 and a 60 s window,
five calls inside the window are admitted, a sixth inside it is
rejected, and a call after the window elapses is admitted again. -/
theorem claim_C6_rate_limiter_sliding_window :
    (∀ (cfg : RateLimitConfig) (clients : RLClients) (id : String) (now : Int),
      (isAllowed cfg clients id now).1.allowed =
        decide ((((rlLookup clients id).getD ⟨[], now⟩).requests.filter
          (fun t => t > now - cfg.windowMs)).length < cfg.maxRequests)
      ∧ rlLookup (isAllowed cfg clients id now).2 id =
          some ⟨(if (((rlLookup clients id).getD ⟨[], now⟩).requests.filter
                  (fun t => t > now - cfg.windowMs)).length < cfg.maxRequests
                then (((rlLookup clients id).getD ⟨[], now⟩).requests.filter
                  (fun t => t > now - cfg.windowMs)) ++ [now]
                else (((rlLookup clients id).getD ⟨[], now⟩).requests.filter
                  (fun t => t > now - cfg.windowMs))),
                ((rlLookup clients id).getD ⟨[], now⟩).lastReset⟩)
    ∧ (rlRun ⟨60000, 5⟩ "client" [] [0, 1, 2, 3, 4, 5, 70000]).1 =
        [true, true, true, true, true, false, true] := by
  refine ⟨fun cfg clients id now => ⟨rfl, ?_⟩, by decide⟩
  simp only [isAllowed]
  rw [rlLookup_rlSet]

/-- Claim C8: for every key, value and TTL, a `get` at time `m` after a
`set` at time `n` returns the value iff `m - n` has not exceeded the
TTL; once it has, `get` returns absent and deletes the entry in the
same lookup, and `has` answers false. -/
theorem claim_C8_cache_ttl {V : Type} (c : CacheMap V) (k : String) (v : V)
    (t : Nat) (n m : Int) :
    (mcGet (mcSet c k v t n) k m).1 = (if m - n > (t : Int) then none else some v)
    ∧ cacheLookup (mcGet (mcSet c k v t n) k m).2 k =
        (if m - n > (t : Int) then none else some ⟨v, n, t⟩)
    ∧ (mcHas (mcSet c k v t n) k m).1 = decide (¬ m - n > (t : Int)) := by
  have hl : cacheLookup (cacheSetEntry c k ⟨v, n, t⟩) k = some ⟨v, n, t⟩ :=
    cacheLookup_setEntry c k ⟨v, n, t⟩
  by_cases h : m - n > (t : Int)
  · refine ⟨?_, ?_, ?_⟩
    · simp [mcGet, mcSet, hl, h]
    · simp [mcGet, mcSet, hl, h, cacheLookup_delete]
    · simp [mcHas, mcSet, hl, h]
  · refine ⟨?_, ?_, ?_⟩
    · simp [mcGet, mcSet, hl, h]
    · simp [mcGet, mcSet, hl, h]
    · simp [mcHas, mcSet, hl, h]

/-- Counterexample to claim C7: a client whose record was created at
time 0 keeps issuing requests (again at 125000 ms); at 130000 ms its
newest timestamp 125000 is well inside two 60 s windows, yet the sweep
deletes the record, because deletion is keyed on `lastReset` (the
record's creation time), not on the newest request timestamp. -/
theorem claim_C7_counterexample :
    rlLookup ((isAllowed ⟨60000, 5⟩ [] "c" 0).2) "c" = some ⟨[0], 0⟩
    ∧ rlLookup ((isAllowed ⟨60000, 5⟩ (isAllowed ⟨60000, 5⟩ [] "c" 0).2 "c" 125000).2) "c" =
        some ⟨[125000], 0⟩
    ∧ (130000 : Int) - 2 * 60000 ≤ 125000
    ∧ rlLookup (cleanup ⟨60000, 5⟩
        ((isAllowed ⟨60000, 5⟩ (isAllowed ⟨60000, 5⟩ [] "c" 0).2 "c" 125000).2) 130000) "c" =
        none := by
  decide

/-- Claim C7 amended: the sweep deletes a client's record exactly when
the record's `lastReset` — set when the record was created and never
updated by later admissions — is older than `now - 2 * window`; an
uninterruptedly active client is therefore still evicted once its
record is two window-lengths old. -/
theorem claim_C7_cleanup_by_creation_time :
    (∀ (cfg : RateLimitConfig) (clients : RLClients) (now : Int),
      cleanup cfg clients now =
        clients.filter (fun p => decide (now - cfg.windowMs * 2 ≤ p.2.lastReset)))
    ∧ (∀ (cfg : RateLimitConfig) (clients : RLClients) (id : String) (now : Int)
        (info : RateLimitInfo), rlLookup clients id = some info →
        (rlLookup (isAllowed cfg clients id now).2 id).map RateLimitInfo.lastReset =
          some info.lastReset)
    ∧ (∀ (cfg : RateLimitConfig) (clients : RLClients) (id : String) (now : Int),
        rlLookup clients id = none →
        (rlLookup (isAllowed cfg clients id now).2 id).map RateLimitInfo.lastReset =
          some now) := by
  refine ⟨fun cfg clients now => ?_, fun cfg clients id now info h => ?_, fun cfg clients id now h => ?_⟩
  · apply List.filter_congr
    intro p _
    simp [Int.not_lt]
  · simp only [isAllowed]
    rw [rlLookup_rlSet]
    simp [h]
  · simp only [isAllowed]
    rw [rlLookup_rlSet]
    simp [h]

/-- Witness for the amended C7 theorem at a concrete state: an existing
record keeps its creation-time `lastReset` through a later admission,
and a fresh record gets `lastReset = now`. -/
theorem claim_C7_cleanup_by_creation_time_witness :
    cleanup ⟨60000, 5⟩ [("c", ⟨[125000], 0⟩)] 130000 =
      List.filter (fun p => decide ((130000 : Int) - 60000 * 2 ≤ p.2.lastReset))
        [("c", ⟨[125000], 0⟩)]
    ∧ (rlLookup (isAllowed ⟨60000, 5⟩ [("c", ⟨[0], 0⟩)] "c" 125000).2 "c").map
        RateLimitInfo.lastReset = some 0
    ∧ (rlLookup (isAllowed ⟨60000, 5⟩ [] "d" 7).2 "d").map RateLimitInfo.lastReset = some 7 :=
  ⟨claim_C7_cleanup_by_creation_time.1 ⟨60000, 5⟩ [("c", ⟨[125000], 0⟩)] 130000,
    claim_C7_cleanup_by_creation_time.2.1 ⟨60000, 5⟩ [("c", ⟨[0], 0⟩)] "c" 125000 ⟨[0], 0⟩ (by decide),
    claim_C7_cleanup_by_creation_time.2.2 ⟨60000, 5⟩ [] "d" 7 (by decide)⟩

theorem encodeStringList_ne_empty (l : List String) : encodeStringList l ≠ "" := by
  intro h
  have hdata := congrArg String.data h
  simp [encodeStringList] at hdata

/-- Conversion inverts `toRow` up to `updated_at`, which the
save stamped with its own clock reading. -/
theorem convertDbToQuestion_toRow (q : Question) (now : String) (hnow : now ≠ "") :
    convertDbToQuestion (toRow q now) = .ok { q with updated_at := some now } := by
  rw [convertDbToQuestion]
  simp only [toRow, decodeStringList_encode, decodeExampleBlock_encode]
  cases hp : q.pseudocode with
  | none =>
    simp only [Option.map_none']
    simp [hnow, hp]
  | some pl =>
    simp only [Option.map_some']
    simp [hnow, hp, encodeStringList_ne_empty pl, decodeStringList_encode]

/-- A sample valid artifact with no `updated_at`. -/
def qSample : Question :=
  ⟨"q1", "T", "Easy", ["a"], "desc desc desc", ⟨"1", "2", "3"⟩, "print(1)", ["s"],
    none, "2024-01-01T00:00:00.000Z", none⟩

/-- Counterexample to claim C9 as stated: saving `qSample` (whose
`updated_at` is `none`) and reading it back by id yields a record whose
`updated_at` is the save-time clock reading, so the read-back record is
not field-for-field equal to what was written. -/
theorem claim_C9_counterexample :
    saveQuestion qSample "2024-02-02T00:00:00.000Z" [] =
      .ok [toRow qSample "2024-02-02T00:00:00.000Z"]
    ∧ getQuestion "q1" [toRow qSample "2024-02-02T00:00:00.000Z"] =
        .ok (some { qSample with updated_at := some "2024-02-02T00:00:00.000Z" })
    ∧ ({ qSample with updated_at := some "2024-02-02T00:00:00.000Z" } : Question) ≠ qSample := by
  refine ⟨rfl, ?_, by decide⟩
  rw [show ([toRow qSample "2024-02-02T00:00:00.000Z"] : List DatabaseQuestion) =
      [] ++ [toRow qSample "2024-02-02T00:00:00.000Z"] from rfl]
  rw [getQuestion, if_neg (by decide)]
  simp only [List.nil_append, List.find?]
  rw [show (decide ((toRow qSample "2024-02-02T00:00:00.000Z").id = "q1")) = true from rfl]
  simp only [convertDbToQuestion_toRow qSample "2024-02-02T00:00:00.000Z" (by decide)]

/-- Claim C9 amended: for every artifact with a valid difficulty (the
schema CHECK) and non-empty id, saved at a non-empty time `now` over
any prior table state, reading back by id returns the artifact
field-for-field — list fields in order — except `updated_at`, which the
save has set to `now`. -/
theorem claim_C9_roundtrip_amended (q : Question) (db : List DatabaseQuestion) (now : String)
    (hd : difficultyOk q.difficulty = true) (hid : q.id ≠ "") (hnow : now ≠ "") :
    saveQuestion q now db =
      .ok (db.filter (fun r => r.id ≠ q.id && r.title ≠ q.title) ++ [toRow q now])
    ∧ getQuestion q.id
        (db.filter (fun r => r.id ≠ q.id && r.title ≠ q.title) ++ [toRow q now]) =
      .ok (some { q with updated_at := some now }) := by
  constructor
  · simp [saveQuestion, hd]
  · rw [getQuestion, if_neg hid]
    have hnone : (db.filter (fun r => r.id ≠ q.id && r.title ≠ q.title)).find?
        (fun r => r.id = q.id) = none := by
      rw [List.find?_eq_none]
      intro x hx
      have hmem := List.of_mem_filter hx
      simp only [Bool.and_eq_true, decide_eq_true_eq, ne_eq] at hmem
      simp only [decide_eq_true_eq]
      exact hmem.1
    rw [List.find?_append, hnone]
    simp only [Option.none_or, List.find?]
    rw [show (decide ((toRow q now).id = q.id)) = true by simp [toRow]]
    simp only [convertDbToQuestion_toRow q now hnow]

/-- Witness for the amended C9 round-trip at `qSample`. -/
theorem claim_C9_roundtrip_amended_witness :
    saveQuestion qSample "2024-03-03T00:00:00.000Z" [] =
      .ok ([].filter (fun r => r.id ≠ qSample.id && r.title ≠ qSample.title) ++
        [toRow qSample "2024-03-03T00:00:00.000Z"])
    ∧ getQuestion qSample.id
        ([].filter (fun r => r.id ≠ qSample.id && r.title ≠ qSample.title) ++
          [toRow qSample "2024-03-03T00:00:00.000Z"]) =
      .ok (some { qSample with updated_at := some "2024-03-03T00:00:00.000Z" }) :=
  claim_C9_roundtrip_amended qSample [] "2024-03-03T00:00:00.000Z" (by decide) (by decide)
    (by decide)

/-! ## Ledger accounting (claims C1, C2, C4) -/

theorem chunk3_flatten {α : Type} : ∀ (l : List α), (chunk3 l).flatten = l
  | [] => rfl
  | [_] => rfl
  | [_, _] => rfl
  | a :: b :: c :: rest => by
    simp only [chunk3, List.flatten_cons, List.cons_append, List.nil_append,
      chunk3_flatten rest]

/-- Each processed title settles exactly one way: `total` is untouched,
`completed + failed` grows by one per title, and `errors` grows by one
entry per failure. -/
theorem runTitles_spec (env : Env) :
    ∀ (ts : List String) (ix : Nat) (acc : OrchAcc),
      (runTitles env ix acc ts).status.total = acc.status.total
      ∧ (runTitles env ix acc ts).status.completed + (runTitles env ix acc ts).status.failed
          = acc.status.completed + acc.status.failed + ts.length
      ∧ (runTitles env ix acc ts).status.errors.length + acc.status.failed
          = acc.status.errors.length + (runTitles env ix acc ts).status.failed := by
  intro ts
  induction ts with
  | nil => intro ix acc; simp [runTitles]
  | cons t rest ih =>
    intro ix acc
    rw [runTitles]
    rcases hpt : processTitle env ix acc.db t with ⟨out, db2⟩
    obtain ⟨h1, h2, h3⟩ :=
      ih (ix + 1) (recordOutcome acc t (out, db2))
    cases out with
    | success q =>
      refine ⟨?_, ?_, ?_⟩ <;> simp only [h1, h2, h3, recordOutcome] at * <;>
        simp [recordOutcome] at h1 h2 h3 ⊢ <;> omega
    | failure m =>
      refine ⟨?_, ?_, ?_⟩ <;> simp only [h1, h2, h3, recordOutcome] at * <;>
        simp [recordOutcome] at h1 h2 h3 ⊢ <;> omega

theorem runBatches_spec (env : Env) :
    ∀ (bs : List (List String)) (ix : Nat) (acc : OrchAcc),
      (runBatches env ix acc bs).status.total = acc.status.total
      ∧ (runBatches env ix acc bs).status.completed + (runBatches env ix acc bs).status.failed
          = acc.status.completed + acc.status.failed + bs.flatten.length
      ∧ (runBatches env ix acc bs).status.errors.length + acc.status.failed
          = acc.status.errors.length + (runBatches env ix acc bs).status.failed := by
  intro bs
  induction bs with
  | nil => intro ix acc; simp [runBatches]
  | cons b rest ih =>
    intro ix acc
    rw [runBatches]
    obtain ⟨t1, t2, t3⟩ := runTitles_spec env b ix acc
    obtain ⟨h1, h2, h3⟩ := ih (ix + b.length) (runTitles env ix acc b)
    refine ⟨by rw [h1, t1], ?_, ?_⟩ <;>
      (try simp only [List.flatten_cons, List.length_append]) <;> omega

/-- Claim C1: once the batch precondition holds (1-20 titles, each of
1-200 characters), POST returns a ledger in every case — never an
exception — and the ledger satisfies
`completed + failed = total = titles.length`, with one error entry per
failure. -/
theorem claim_C1_generate_ledger (env : Env) (titles : List String)
    (h : validGenerateRequest titles = true) :
    ∃ st, (post env titles).1.data = some st ∧ st.total = titles.length
      ∧ st.completed + st.failed = st.total ∧ st.errors.length = st.failed := by
  have hlen : 1 ≤ titles.length ∧ titles.length ≤ 20 := by
    simp only [validGenerateRequest, Bool.and_eq_true, decide_eq_true_eq] at h
    exact ⟨h.1.1, h.1.2⟩
  obtain ⟨h1, h2, h3⟩ :=
    runBatches_spec env (chunk3 titles) 0 ⟨⟨titles.length, 0, 0, []⟩, [], []⟩
  rw [chunk3_flatten] at h2
  rw [post]
  simp only [h, not_true_eq_false, if_false, ite_false]
  rw [if_neg (by omega), if_neg (by omega)]
  set acc := runBatches env 0 ⟨⟨titles.length, 0, 0, []⟩, [], []⟩ (chunk3 titles) with hacc
  refine ⟨acc.status, ?_, by simpa using h1, by simp at h1 h2 ⊢; omega, by simp at h3 ⊢; omega⟩
  by_cases hc : acc.status.completed = 0
  · rw [if_pos hc]
  · rw [if_neg hc]
    by_cases hf : acc.status.failed > 0
    · rw [if_pos hf]
    · rw [if_neg hf]

/-- A well-formed metadata result used by the sample oracle. -/
def mdSample : Metadata :=
  { title := "Check if a number is even or odd"
    difficulty := "Easy"
    topics := ["Math", "Conditionals"]
    description := "Determine whether a given integer is even or odd."
    exampleBlock := ⟨"4", "Even", "4 is divisible by 2"⟩
    solution_python := "n = int(input())"
    step_by_step_explanation := ["Read the number", "Check n % 2"]
    pseudocode := none }

/-- Sample oracle: every generation call resolves with `mdSample`. -/
def envSample : Env :=
  { gen := fun _ _ => .ok mdSample
    idOf := fun i => s!"id-{i}"
    createdAt := fun _ => "2024-01-01T00:00:00.000Z"
    saveNow := fun _ => "2024-01-01T00:00:00.000Z" }

/-- Witness for claim C1 on a concrete batch. -/
theorem claim_C1_generate_ledger_witness :
    ∃ st, (post envSample ["Check if a number is even or odd"]).1.data = some st
      ∧ st.total = (["Check if a number is even or odd"] : List String).length
      ∧ st.completed + st.failed = st.total ∧ st.errors.length = st.failed :=
  claim_C1_generate_ledger envSample ["Check if a number is even or odd"] (by decide)

/-- Counterexample to claim C2 as stated: on input
`["Check if a number is even or odd", ""]` the request-validation
schema rejects the empty title (`z.string().min(1)`), so POST answers
400 with no ledger and persists nothing, instead of returning the
claimed `{total 2, completed 1, failed 1}` ledger. -/
theorem claim_C2_counterexample :
    (post envSample ["Check if a number is even or odd", ""]).1 =
      ⟨400, false, some "Invalid generate request", none, none⟩
    ∧ (post envSample ["Check if a number is even or odd", ""]).2.db = [] := by
  decide

/-- Claim C2 amended: an all-whitespace title `" "` passes request
validation and is rejected by per-title sanitization inside the run:
on `["Check if a number is even or odd", " "]` the ledger is
`{total 2, completed 1, failed 1}` with the single error entry
`Failed to generate " ": Title cannot be empty`, and exactly one
artifact, titled `"Check if a number is even or odd"`, is persisted. -/
theorem claim_C2_whitespace_title_scenario :
    (post envSample ["Check if a number is even or odd", " "]).1.status = 207
    ∧ (post envSample ["Check if a number is even or odd", " "]).1.data =
        some ⟨2, 1, 1, ["Failed to generate \" \": Title cannot be empty"]⟩
    ∧ (post envSample ["Check if a number is even or odd", " "]).2.db.map
        DatabaseQuestion.title = ["Check if a number is even or odd"]
    ∧ (post envSample ["Check if a number is even or odd", " "]).2.generated.map
        Question.title = ["Check if a number is even or odd"] := by
  decide

/-- A metadata result that satisfies every check the pipeline actually
performs, while violating the data-model constraints (no topics, short
description, empty example fields, no explanation steps). -/
def mdBad : Metadata :=
  { title := "t"
    difficulty := "Easy"
    topics := []
    description := "short"
    exampleBlock := ⟨"", "", ""⟩
    solution_python := "s"
    step_by_step_explanation := []
    pseudocode := none }

def envBad : Env :=
  { gen := fun _ _ => .ok mdBad
    idOf := fun i => s!"id-{i}"
    createdAt := fun _ => "2024-01-01T00:00:00.000Z"
    saveNow := fun _ => "2024-01-01T00:00:00.000Z" }

/-- Counterexample to claim C4 as stated: the pipeline persists an
artifact with zero topics, a 5-character description, empty example
fields and no explanation steps — the route validates only the
truthiness of `title`, `description` and `solution_python` before
saving, and the store checks only the difficulty enum. -/
theorem claim_C4_counterexample :
    (post envBad ["Even or odd"]).2.generated.length = 1
    ∧ (post envBad ["Even or odd"]).2.db.length = 1
    ∧ (post envBad ["Even or odd"]).2.generated.all QuestionValid = false := by
  decide

theorem processTitle_success_checks (env : Env) (ix : Nat) (db : List DatabaseQuestion)
    (t : String) (q : Question) (db2 : List DatabaseQuestion)
    (h : processTitle env ix db t = (.success q, db2)) :
    q.title ≠ "" ∧ q.description ≠ "" ∧ q.solution_python ≠ ""
      ∧ difficultyOk q.difficulty = true := by
  rw [processTitle] at h
  dsimp only at h
  split at h
  · exact absurd (congrArg Prod.fst h) (by simp)
  split at h
  · exact absurd (congrArg Prod.fst h) (by simp)
  split at h
  · exact absurd (congrArg Prod.fst h) (by simp)
  next hck =>
    split at h
    next hsv => exact absurd (congrArg Prod.fst h) (by simp)
    next db3 hsv =>
      injection h with h1 h2
      injection h1 with h1
      subst h1
      rw [saveQuestion] at hsv
      split at hsv
      next hdok =>
        simp only [Bool.or_eq_true, decide_eq_true_eq, not_or] at hck
        exact ⟨hck.1.1, hck.1.2, hck.2, hdok⟩
      · exact Except.noConfusion hsv

theorem runTitles_generated (env : Env) :
    ∀ (ts : List String) (ix : Nat) (acc : OrchAcc) (q : Question),
      q ∈ (runTitles env ix acc ts).generated →
      q ∈ acc.generated ∨
        (q.title ≠ "" ∧ q.description ≠ "" ∧ q.solution_python ≠ ""
          ∧ difficultyOk q.difficulty = true) := by
  intro ts
  induction ts with
  | nil => intro ix acc q h; exact Or.inl h
  | cons t rest ih =>
    intro ix acc q h
    rw [runTitles] at h
    rcases hpt : processTitle env ix acc.db t with ⟨out, db2⟩
    rw [hpt] at h
    cases out with
    | success q2 =>
      rcases ih _ _ q h with hmem | hgood
      · simp only [recordOutcome, List.mem_append, List.mem_singleton] at hmem
        rcases hmem with hmem | rfl
        · exact Or.inl hmem
        · exact Or.inr (processTitle_success_checks env ix acc.db t q db2 hpt)
      · exact Or.inr hgood
    | failure m =>
      rcases ih _ _ q h with hmem | hgood
      · exact Or.inl hmem
      · exact Or.inr hgood

theorem runBatches_generated (env : Env) :
    ∀ (bs : List (List String)) (ix : Nat) (acc : OrchAcc) (q : Question),
      q ∈ (runBatches env ix acc bs).generated →
      q ∈ acc.generated ∨
        (q.title ≠ "" ∧ q.description ≠ "" ∧ q.solution_python ≠ ""
          ∧ difficultyOk q.difficulty = true) := by
  intro bs
  induction bs with
  | nil => intro ix acc q h; exact Or.inl h
  | cons b rest ih =>
    intro ix acc q h
    rw [runBatches] at h
    rcases ih _ _ q h with hmem | hgood
    · exact runTitles_generated env b ix acc q hmem
    · exact Or.inr hgood

/-- Claim C4 amended: every artifact the pipeline hands to the
persistence write is guaranteed a non-empty title, description and
Python solution (the route's pre-save check) and a difficulty in the
Easy/Medium/Hard enum (the store's CHECK constraint); the remaining
data-model constraints (topics 1-10, description 10-2000 characters,
non-empty example fields, ≥ 1 explanation step) are not enforced. -/
theorem claim_C4_persisted_artifact_fields (env : Env) (titles : List String)
    (q : Question) (h : q ∈ (post env titles).2.generated) :
    q.title ≠ "" ∧ q.description ≠ "" ∧ q.solution_python ≠ ""
      ∧ difficultyOk q.difficulty = true := by
  rw [post] at h
  dsimp only at h
  split at h
  · simp at h
  split at h
  · simp at h
  split at h
  · simp at h
  have hgen :
      q ∈ (runBatches env 0 ⟨⟨titles.length, 0, 0, []⟩, [], []⟩ (chunk3 titles)).generated := by
    split at h <;> [skip; split at h] <;> exact h
  rcases runBatches_generated env (chunk3 titles) 0 _ q hgen with hmem | hgood
  · simp at hmem
  · exact hgood

/-- Witness for the amended C4 theorem: the artifact the sample run
persists has the four guaranteed fields. -/
theorem claim_C4_persisted_artifact_fields_witness :
    ∃ q : Question, q ∈ (post envSample ["Even or odd"]).2.generated ∧
      q.title ≠ "" ∧ q.description ≠ "" ∧ q.solution_python ≠ ""
        ∧ difficultyOk q.difficulty = true := by
  have hmem : (⟨"id-0", "Even or odd", "Easy", ["Math", "Conditionals"],
      "Determine whether a given integer is even or odd.",
      ⟨"4", "Even", "4 is divisible by 2"⟩, "n = int(input())",
      ["Read the number", "Check n % 2"], none, "2024-01-01T00:00:00.000Z",
      none⟩ : Question) ∈ (post envSample ["Even or odd"]).2.generated := by
    decide
  exact ⟨_, hmem, claim_C4_persisted_artifact_fields envSample ["Even or odd"] _ hmem⟩

/-! ## Field-coercion lemmas (claim C5) -/

theorem lookupField_set_self (fs : List (String × Json)) (k : String) (v : Json) :
    lookupField (setFieldList fs k v) k = some v := by
  induction fs with
  | nil => simp [setFieldList, lookupField]
  | cons p rest ih =>
    by_cases h : p.1 = k
    · simp [setFieldList, lookupField, h]
    · simp [setFieldList, lookupField, h, ih]

theorem lookupField_set_ne (fs : List (String × Json)) (k k' : String) (v : Json)
    (hne : ¬ k = k') : lookupField (setFieldList fs k v) k' = lookupField fs k' := by
  induction fs with
  | nil => simp [setFieldList, lookupField, hne]
  | cons p rest ih =>
    by_cases h : p.1 = k
    · simp only [setFieldList, if_pos h, lookupField]
      rw [if_neg (h ▸ hne), if_neg (h ▸ hne)]
    · simp only [setFieldList, if_neg h, lookupField]
      by_cases h2 : p.1 = k'
      · rw [if_pos h2, if_pos h2]
      · rw [if_neg h2, if_neg h2, ih]

theorem lookupField_remove_self (fs : List (String × Json)) (k : String) :
    lookupField (fs.filter (fun p => p.1 ≠ k)) k = none := by
  induction fs with
  | nil => rfl
  | cons p rest ih =>
    by_cases h : p.1 = k
    · simpa [List.filter, h] using ih
    · simpa [List.filter, lookupField, h] using ih

theorem lookupField_remove_ne (fs : List (String × Json)) (k k' : String) (hne : ¬ k = k') :
    lookupField (fs.filter (fun p => p.1 ≠ k)) k' = lookupField fs k' := by
  induction fs with
  | nil => rfl
  | cons p rest ih =>
    simp only [ne_eq, decide_not] at ih
    have hkk : ¬ k' = k := fun hh => hne hh.symm
    by_cases h : p.1 = k
    · have hpk : ¬ p.1 = k' := by rw [h]; exact hne
      simp [List.filter_cons, h, lookupField, hpk, hne, hkk, ih]
    · by_cases h2 : p.1 = k'
      · simp [List.filter_cons, h, lookupField, h2, hkk, ih]
      · simp [List.filter_cons, h, lookupField, h2, hkk, ih]

theorem requiredPresent_obj (j : Json) (h : requiredPresent j = true) :
    ∃ fs, j = .obj fs := by
  cases j with
  | obj fs => exact ⟨fs, rfl⟩
  | null => simp [requiredPresent, getField, truthy] at h
  | bool b => simp [requiredPresent, getField, truthy] at h
  | num n => simp [requiredPresent, getField, truthy] at h
  | str s => simp [requiredPresent, getField, truthy] at h
  | arr xs => simp [requiredPresent, getField, truthy] at h

theorem coerceArrays_getField (fs : List (String × Json)) :
    getField (coerceArrays (.obj fs)) "topics" =
      some (.arr (asArrList (getField (.obj fs) "topics")))
    ∧ getField (coerceArrays (.obj fs)) "step_by_step_explanation" =
      some (.arr (asArrList (getField (.obj fs) "step_by_step_explanation")))
    ∧ getField (coerceArrays (.obj fs)) "pseudocode" =
      asArrOpt (getField (.obj fs) "pseudocode") := by
  have hg : ∀ k, getField (Json.obj fs) k = lookupField fs k := fun _ => rfl
  cases hap : asArrOpt (lookupField fs "pseudocode") with
  | some v =>
    simp only [coerceArrays, hg, hap, setField, getField]
    refine ⟨?_, ?_, ?_⟩
    · rw [lookupField_set_ne _ _ _ _ (by decide), lookupField_set_ne _ _ _ _ (by decide),
        lookupField_set_self]
    · rw [lookupField_set_ne _ _ _ _ (by decide), lookupField_set_self]
    · rw [lookupField_set_self]
  | none =>
    simp only [coerceArrays, hg, hap, setField, removeField, getField]
    refine ⟨?_, ?_, ?_⟩
    · rw [lookupField_remove_ne _ _ _ (by decide), lookupField_set_ne _ _ _ _ (by decide),
        lookupField_set_self]
    · rw [lookupField_remove_ne _ _ _ (by decide), lookupField_set_self]
    · rw [lookupField_remove_self]

/-- A decoded object whose mandatory keys are all present but whose
`title` is the empty string (JS-falsy). -/
def jCE : Json :=
  .obj [("title", .str ""), ("difficulty", .str "Easy"), ("description", .str "d")]

def decodeCE : String → Option Json := fun _ => some jCE

/-- Counterexample to claim C5 as stated: on a response in which an
object literal is located and decoded and all three mandatory keys are
present, the parser still fails, because the code tests JS truthiness
(an empty-string `title` fails), not key presence. -/
theorem claim_C5_counterexample :
    (parseGeminiResponse decodeCE "\x7bx\x7d").isOk = false
    ∧ locateJson (strTrim "\x7bx\x7d").toList = some [openBrace, 'x', closeBrace]
    ∧ decodeCE (String.mk [openBrace, 'x', closeBrace]) = some jCE
    ∧ hasKey jCE "title" = true ∧ hasKey jCE "difficulty" = true
    ∧ hasKey jCE "description" = true := by
  exact ⟨rfl, rfl, rfl, rfl, rfl, rfl⟩

/-- Claim C5 amended: the parser fails exactly when no object literal
can be located in the trimmed response, the located literal does not
decode, or a mandatory field (`title`, `difficulty`, `description`) is
absent-or-falsy in the decoded object; when the mandatory fields are
truthy it succeeds, coercing a non-list `topics` or
`step_by_step_explanation` to the empty list and a non-list
`pseudocode` to absent — a malformed-but-present optional field never
causes a failure. -/
theorem claim_C5_parser_failure_conditions (decode : String → Option Json) (s : String) :
    ((parseGeminiResponse decode s).isOk = false ↔
      locateJson (strTrim s).toList = none
      ∨ ∃ m, locateJson (strTrim s).toList = some m ∧
          (decode (String.mk m) = none
           ∨ ∃ j, decode (String.mk m) = some j ∧ requiredPresent j = false))
    ∧ (∀ m j, locateJson (strTrim s).toList = some m → decode (String.mk m) = some j →
        requiredPresent j = true →
        parseGeminiResponse decode s = .ok (coerceArrays j)
        ∧ getField (coerceArrays j) "topics" =
            some (.arr (asArrList (getField j "topics")))
        ∧ getField (coerceArrays j) "step_by_step_explanation" =
            some (.arr (asArrList (getField j "step_by_step_explanation")))
        ∧ getField (coerceArrays j) "pseudocode" = asArrOpt (getField j "pseudocode")) := by
  constructor
  · cases hloc : locateJson (strTrim s).toList with
    | none =>
      simp only [String.toList] at hloc
      simp [parseGeminiResponse, String.toList, hloc, Except.isOk, Except.toBool]
    | some m =>
      cases hdec : decode (String.mk m) with
      | none =>
        simp only [String.toList] at hloc
        simp [parseGeminiResponse, String.toList, hloc, hdec,
          Except.isOk, Except.toBool]
      | some j =>
        simp only [String.toList] at hloc
        by_cases hreq : requiredPresent j = true
        · simp [parseGeminiResponse, String.toList, hloc, hdec, hreq,
            Except.isOk, Except.toBool]
        · simp only [Bool.not_eq_true] at hreq
          simp [parseGeminiResponse, String.toList, hloc, hdec, hreq,
            Except.isOk, Except.toBool]
  · intro m j h1 h2 h3
    obtain ⟨fs, rfl⟩ := requiredPresent_obj j h3
    obtain ⟨g1, g2, g3⟩ := coerceArrays_getField fs
    exact ⟨by simp only [String.toList] at h1; simp [parseGeminiResponse, String.toList, h1, h2, h3], g1, g2, g3⟩

/-- Witness for the amended C5 theorem: a concrete response whose
object decodes with truthy mandatory fields and a non-list `topics`. -/
theorem claim_C5_parser_failure_conditions_witness :
    parseGeminiResponse (fun _ => some (.obj [("title", .str "t"),
        ("difficulty", .str "Easy"), ("description", .str "d"),
        ("topics", .str "not-a-list")])) "\x7bx\x7d" =
      .ok (coerceArrays (.obj [("title", .str "t"), ("difficulty", .str "Easy"),
        ("description", .str "d"), ("topics", .str "not-a-list")]))
    ∧ getField (coerceArrays (.obj [("title", .str "t"), ("difficulty", .str "Easy"),
        ("description", .str "d"), ("topics", .str "not-a-list")])) "topics" =
      some (.arr (asArrList (getField (.obj [("title", .str "t"),
        ("difficulty", .str "Easy"), ("description", .str "d"),
        ("topics", .str "not-a-list")]) "topics"))) :=
  ⟨((claim_C5_parser_failure_conditions (fun _ => some (.obj [("title", .str "t"),
      ("difficulty", .str "Easy"), ("description", .str "d"),
      ("topics", .str "not-a-list")])) "\x7bx\x7d").2 [openBrace, 'x', closeBrace] _
      rfl rfl rfl).1,
    ((claim_C5_parser_failure_conditions (fun _ => some (.obj [("title", .str "t"),
      ("difficulty", .str "Easy"), ("description", .str "d"),
      ("topics", .str "not-a-list")])) "\x7bx\x7d").2 [openBrace, 'x', closeBrace] _
      rfl rfl rfl).2.1⟩

/-- Claim C10: whenever the greedy brace regex finds no match on the
trimmed response text, the fenced-block pattern cannot match either
(its capture group needs a brace pair the greedy pattern would have
found), so step (1) failing forces the invalid-response-format
failure. -/
theorem claim_C10_fenced_fallback_unreachable (s : String) (decode : String → Option Json)
    (h : greedyBrace (strTrim s).toList = none) :
    fencedCapture (strTrim s).toList = none
    ∧ parseGeminiResponse decode s = .error "Invalid response format from Gemini API" := by
  have hf := fencedCapture_none_of_greedyBrace_none _ h
  refine ⟨hf, ?_⟩
  have hloc : locateJson (strTrim s).toList = none := by
    simp only [String.toList] at h hf
    simp [locateJson, String.toList, h, hf]
  simp only [String.toList] at hloc
  simp [parseGeminiResponse, String.toList, hloc]

/-- Witness for claim C10 on a brace-free response text. -/
theorem claim_C10_fenced_fallback_unreachable_witness :
    fencedCapture (strTrim "no braces here").toList = none
    ∧ parseGeminiResponse decodeCE "no braces here" =
        .error "Invalid response format from Gemini API" :=
  claim_C10_fenced_fallback_unreachable "no braces here" decodeCE (by decide)

/-! ## Claim C3: batch sizes, barrier and inter-batch delay -/

def sumLens (bs : List (List String)) : Nat := (bs.map List.length).sum

def validOk (t : String) : Bool := (validateAndSanitizeTitle t).isOk

theorem chunk3_le {α : Type} : ∀ (l : List α), ∀ b ∈ chunk3 l, b.length ≤ 3
  | [], _, h => by simp [chunk3] at h
  | [a], b, h => by
    simp only [chunk3, List.mem_singleton] at h
    simp [h]
  | [a, a2], b, h => by
    simp only [chunk3, List.mem_singleton] at h
    simp [h]
  | a :: a2 :: a3 :: rest, b, h => by
    simp only [chunk3, List.mem_cons] at h
    rcases h with rfl | h
    · simp
    · exact chunk3_le rest b h

theorem il_mem_sound (ls : List (List Ev)) (out : List Ev) (h : Il ls out) :
    ∀ e ∈ out, ∃ l ∈ ls, e ∈ l := by
  induction h with
  | done ls hls => intro e he; simp at he
  | step ls k hk e0 tl out0 hget hil ih =>
    intro e he
    rcases List.mem_cons.mp he with rfl | he2
    · exact ⟨ls.get ⟨k, hk⟩, ls.get_mem _ _, by rw [hget]; exact List.mem_cons_self _ _⟩
    · obtain ⟨l, hl, hel⟩ := ih e he2
      rcases List.mem_or_eq_of_mem_set hl with hl2 | rfl
      · exact ⟨l, hl2, hel⟩
      · exact ⟨ls.get ⟨k, hk⟩, ls.get_mem _ _, by rw [hget]; exact List.mem_cons_of_mem _ hel⟩

theorem il_mem_complete (ls : List (List Ev)) (out : List Ev) (h : Il ls out) :
    ∀ (i : Nat) (hi : i < ls.length), ∀ e ∈ ls.get ⟨i, hi⟩, e ∈ out := by
  induction h with
  | done ls hls =>
    intro i hi e he
    rw [hls (ls.get ⟨i, hi⟩) (ls.get_mem _ _)] at he
    simp at he
  | step ls k hk e0 tl out0 hget hil ih =>
    intro i hi e he
    by_cases hik : i = k
    · subst hik
      rw [hget] at he
      rcases List.mem_cons.mp he with rfl | he2
      · exact List.mem_cons_self _ _
      · have hb : i < (ls.set i tl).length := by simpa using hi
        have hsete : (ls.set i tl).get ⟨i, hb⟩ = tl := by
          simp [List.get_eq_getElem]
        exact List.mem_cons_of_mem _ (ih i hb e (by rw [hsete]; exact he2))
    · have hb : i < (ls.set k tl).length := by simpa using hi
      have hsete : (ls.set k tl).get ⟨i, hb⟩ = ls.get ⟨i, hi⟩ := by
        simp [List.get_eq_getElem, List.getElem_set_ne (fun hh => hik hh.symm)]
      exact List.mem_cons_of_mem _ (ih i hb e (by rw [hsete]; exact he))

theorem taskTrace_ix (t : String) (bIx gIx : Nat) :
    ∀ e ∈ taskTrace t bIx gIx, ∀ i, callIx e = some i → i = gIx := by
  intro e he i hci
  rw [taskTrace] at he
  split at he
  · simp at he
  · rcases List.mem_append.mp he with hs | hc
    · have : e = Ev.sleepEv GENERATION_DELAY := by
        by_cases hb : bIx > 0 <;> simp [hb] at hs
        · exact hs
      subst this
      simp [callIx] at hci
    · rcases List.mem_cons.mp hc with rfl | hc2
      · simpa [callIx] using hci.symm
      · rcases List.mem_singleton.mp hc2 with rfl
        simpa [callIx] using hci.symm

theorem taskTrace_events (t : String) (bIx gIx : Nat) (hv : validOk t = true) :
    Ev.callStart gIx ∈ taskTrace t bIx gIx ∧ Ev.callEnd gIx ∈ taskTrace t bIx gIx := by
  rw [taskTrace]
  rcases hvv : validateAndSanitizeTitle t with m | st
  · rw [validOk, hvv] at hv
    simp [Except.isOk, Except.toBool] at hv
  · simp

theorem taskTraces_mem_ix (b : List String) :
    ∀ (six j0 : Nat) (l : List Ev), l ∈ taskTraces six j0 b →
      ∀ e ∈ l, ∀ i, callIx e = some i → six + j0 ≤ i ∧ i < six + j0 + b.length := by
  induction b with
  | nil => intro six j0 l hl; simp [taskTraces] at hl
  | cons t rest ih =>
    intro six j0 l hl e he i hci
    rcases List.mem_cons.mp hl with rfl | hl2
    · have := taskTrace_ix t j0 (six + j0) e he i hci
      subst this
      simp only [List.length_cons]
      omega
    · have := ih six (j0 + 1) l hl2 e he i hci
      simp only [List.length_cons]
      omega

theorem taskTraces_length (b : List String) :
    ∀ (six j0 : Nat), (taskTraces six j0 b).length = b.length := by
  induction b with
  | nil => intro six j0; rfl
  | cons t rest ih => intro six j0; simp [taskTraces, ih]

theorem taskTraces_getElem (b : List String) :
    ∀ (six j0 jj : Nat) (h : jj < b.length),
      (taskTraces six j0 b).get ⟨jj, by rw [taskTraces_length]; exact h⟩ =
        taskTrace (b.get ⟨jj, h⟩) (j0 + jj) (six + j0 + jj) := by
  induction b with
  | nil => intro six j0 jj h; simp at h
  | cons t rest ih =>
    intro six j0 jj h
    cases jj with
    | zero => simp [taskTraces]
    | succ jj2 =>
      have := ih six (j0 + 1) jj2 (by simpa using h)
      simp only [taskTraces, List.get_eq_getElem, List.getElem_cons_succ]
      simp only [List.get_eq_getElem] at this
      rw [this]
      congr 1 <;> omega

theorem bta_lb (all : List (List String)) :
    ∀ (bs : List (List String)) (six : Nat) (tr : List Ev),
      BatchesTrace all six bs tr → ∀ e ∈ tr, ∀ i, callIx e = some i → six ≤ i := by
  intro bs
  induction bs with
  | nil =>
    intro six tr h e he
    rw [BatchesTrace] at h
    subst h
    simp at he
  | cons b rest ih =>
    intro six tr h e he i hci
    obtain ⟨btr, rtr, hil, hrest, htr⟩ := h
    subst htr
    rcases List.mem_append.mp he with hA | hB
    · rcases List.mem_append.mp hA with h1 | h2
      · obtain ⟨l, hl, hel⟩ := il_mem_sound _ _ hil e h1
        have := (taskTraces_mem_ix b six 0 l hl e hel i hci).1
        omega
      · split at h2
        · rcases List.mem_singleton.mp h2 with rfl
          simp [callIx] at hci
        · simp at h2
    · have := ih (six + b.length) rtr hrest e hB i hci
      omega

theorem indexOf_append_self (pre rest : List (List String)) (b : List String) :
    (pre ++ b :: rest).indexOf b ≤ pre.length := by
  induction pre with
  | nil => simp [List.indexOf, List.findIdx_cons]
  | cons x pre ih =>
    rw [List.cons_append]
    by_cases hx : x = b
    · subst hx
      simp [List.indexOf, List.findIdx_cons]
    · simp only [List.indexOf, List.findIdx_cons] at ih ⊢
      have hbeq : (x == b) = false := by simpa [beq_iff_eq] using hx
      rw [hbeq]
      simp only [cond_false, List.length_cons]
      omega

theorem bta_split (all : List (List String)) :
    ∀ (bs : List (List String)) (six : Nat) (tr : List Ev) (pre : List (List String)),
      all = pre ++ bs → BatchesTrace all six bs tr →
      ∀ k, k + 1 < bs.length →
        ∃ A B, tr = A ++ Ev.sleepEv (GENERATION_DELAY * 2) :: B
          ∧ (∀ e ∈ A, ∀ i, callIx e = some i → i < six + sumLens (bs.take (k + 1)))
          ∧ (∀ e ∈ B, ∀ i, callIx e = some i → six + sumLens (bs.take (k + 1)) ≤ i) := by
  intro bs
  induction bs with
  | nil => intro six tr pre hall hbt k hk; simp at hk
  | cons b rest ih =>
    intro six tr pre hall hbt k hk
    obtain ⟨btr, rtr, hil, hrest, htr⟩ := hbt
    have hsep : all.indexOf b < all.length - 1 := by
      have h1 := indexOf_append_self pre rest b
      rw [hall]
      simp only [List.length_append, List.length_cons] at h1 hk ⊢
      omega
    rw [if_pos hsep] at htr
    cases k with
    | zero =>
      refine ⟨btr, rtr, by simpa using htr, ?_, ?_⟩
      · intro e he i hci
        obtain ⟨l, hl, hel⟩ := il_mem_sound _ _ hil e he
        have := (taskTraces_mem_ix b six 0 l hl e hel i hci).2
        simp only [List.take_succ_cons, List.take_zero, sumLens, List.map_cons,
          List.map_nil, List.sum_cons, List.sum_nil]
        omega
      · intro e he i hci
        have := bta_lb all rest (six + b.length) rtr hrest e he i hci
        simp only [List.take_succ_cons, List.take_zero, sumLens, List.map_cons,
          List.map_nil, List.sum_cons, List.sum_nil]
        omega
    | succ k2 =>
      have hk2 : k2 + 1 < rest.length := by
        simp only [List.length_cons] at hk
        omega
      obtain ⟨A2, B2, hAB, hA2, hB2⟩ :=
        ih (six + b.length) rtr (pre ++ [b]) (by rw [hall]; simp) hrest k2 hk2
      have hsum : six + sumLens ((b :: rest).take (k2 + 1 + 1)) =
          six + b.length + sumLens (rest.take (k2 + 1)) := by
        simp only [List.take_succ_cons, sumLens, List.map_cons, List.sum_cons]
        omega
      refine ⟨btr ++ Ev.sleepEv (GENERATION_DELAY * 2) :: A2, B2, ?_, ?_, ?_⟩
      · rw [htr, hAB]
        simp
      · intro e he i hci
        rw [hsum]
        rcases List.mem_append.mp he with h1 | h2
        · obtain ⟨l, hl, hel⟩ := il_mem_sound _ _ hil e h1
          have := (taskTraces_mem_ix b six 0 l hl e hel i hci).2
          omega
        · rcases List.mem_cons.mp h2 with rfl | h3
          · simp [callIx] at hci
          · have := hA2 e h3 i hci
            omega
      · intro e he i hci
        rw [hsum]
        exact hB2 e he i hci

theorem sumLens_take_chunk3 : ∀ (l : List String) (k : Nat),
    k + 1 < (chunk3 l).length → sumLens ((chunk3 l).take (k + 1)) = 3 * (k + 1)
  | [], k, h => by simp [chunk3] at h
  | [a], k, h => by simp [chunk3] at h
  | [a, b], k, h => by simp [chunk3] at h
  | a :: b :: c :: rest, k, h => by
    cases k with
    | zero =>
      simp [chunk3, sumLens]
    | succ k2 =>
      have h2 : k2 + 1 < (chunk3 rest).length := by
        simp only [chunk3, List.length_cons] at h
        omega
      have hrec := sumLens_take_chunk3 rest k2 h2
      show sumLens ((chunk3 (a :: b :: c :: rest)).take (k2 + 2)) = 3 * (k2 + 2)
      rw [show chunk3 (a :: b :: c :: rest) = [a, b, c] :: chunk3 rest from rfl,
        List.take_succ_cons]
      rw [show sumLens ([a, b, c] :: (chunk3 rest).take (k2 + 1)) =
        3 + sumLens ((chunk3 rest).take (k2 + 1)) from by simp [sumLens]]
      omega

theorem bta_presence (all : List (List String)) :
    ∀ (bs : List (List String)) (six : Nat) (tr : List Ev),
      BatchesTrace all six bs tr →
      ∀ (bi : Nat) (hbi : bi < bs.length) (jj : Nat)
        (hjj : jj < (bs.get ⟨bi, hbi⟩).length),
        validOk ((bs.get ⟨bi, hbi⟩).get ⟨jj, hjj⟩) = true →
        Ev.callStart (six + sumLens (bs.take bi) + jj) ∈ tr
          ∧ Ev.callEnd (six + sumLens (bs.take bi) + jj) ∈ tr := by
  intro bs
  induction bs with
  | nil => intro six tr h bi hbi; simp at hbi
  | cons b rest ih =>
    intro six tr h bi hbi jj hjj hv
    obtain ⟨btr, rtr, hil, hrest, htr⟩ := h
    subst htr
    cases bi with
    | zero =>
      have hjj0 : jj < b.length := hjj
      have hlen : jj < (taskTraces six 0 b).length := by
        rw [taskTraces_length]
        exact hjj0
      have hget := taskTraces_getElem b six 0 jj hjj0
      have hev := taskTrace_events (b.get ⟨jj, hjj0⟩) (0 + jj) (six + 0 + jj) hv
      have hmem := il_mem_complete _ _ hil jj hlen
      have h1 : Ev.callStart (six + 0 + jj) ∈ btr := hmem _ (by rw [hget]; exact hev.1)
      have h2 : Ev.callEnd (six + 0 + jj) ∈ btr := hmem _ (by rw [hget]; exact hev.2)
      have hidx : six + sumLens ((b :: rest).take 0) + jj = six + 0 + jj := by
        simp [sumLens]
      rw [hidx]
      constructor
      · simp only [List.mem_append]
        refine Or.inl ?_
        simpa using h1
      · simp only [List.mem_append]
        refine Or.inl ?_
        simpa using h2
    | succ bi2 =>
      have hbi2 : bi2 < rest.length := by simpa using hbi
      obtain ⟨p1, p2⟩ := ih (six + b.length) rtr hrest bi2 hbi2 jj hjj hv
      have hidx : six + sumLens ((b :: rest).take (bi2 + 1)) + jj =
          six + b.length + sumLens (rest.take bi2) + jj := by
        simp only [List.take_succ_cons, sumLens, List.map_cons, List.sum_cons]
        omega
      rw [hidx]
      constructor
      · simp only [List.mem_append]
        refine Or.inr ?_
        simpa using p1
      · simp only [List.mem_append]
        refine Or.inr ?_
        simpa using p2

theorem chunk3_get_spec : ∀ (l : List String) (j : Nat) (hj : j < l.length),
    ∃ (h1 : j / 3 < (chunk3 l).length) (h2 : j % 3 < ((chunk3 l).get ⟨j / 3, h1⟩).length),
      ((chunk3 l).get ⟨j / 3, h1⟩).get ⟨j % 3, h2⟩ = l.get ⟨j, hj⟩
      ∧ sumLens ((chunk3 l).take (j / 3)) = 3 * (j / 3)
  | [], j, hj => by simp at hj
  | [a], j, hj => by
    have : j = 0 := by simpa using hj
    subst this
    exact ⟨by simp [chunk3], by simp [chunk3], rfl, rfl⟩
  | [a, b], j, hj => by
    have hj2 : j < 2 := by simpa using hj
    interval_cases j
    · exact ⟨by simp [chunk3], by simp [chunk3], rfl, rfl⟩
    · exact ⟨by simp [chunk3], by simp [chunk3], rfl, rfl⟩
  | a :: b :: c :: rest, j, hj => by
    by_cases hj3 : j < 3
    · interval_cases j
      · exact ⟨by simp [chunk3], by simp [chunk3], rfl, rfl⟩
      · exact ⟨by simp [chunk3], by simp [chunk3], rfl, rfl⟩
      · exact ⟨by simp [chunk3], by simp [chunk3], rfl, rfl⟩
    · obtain ⟨j2, rfl⟩ : ∃ j2, j = j2 + 3 := ⟨j - 3, by omega⟩
      have hj2 : j2 < rest.length := by
        simp only [List.length_cons] at hj
        omega
      obtain ⟨h1, h2, heq, hsum⟩ := chunk3_get_spec rest j2 hj2
      have hdiv : (j2 + 3) / 3 = j2 / 3 + 1 := by omega
      have hmod : (j2 + 3) % 3 = j2 % 3 := by omega
      have hch : chunk3 (a :: b :: c :: rest) = [a, b, c] :: chunk3 rest := rfl
      refine ⟨?_, ?_, ?_, ?_⟩
      · rw [hdiv, hch]
        simp only [List.length_cons]
        omega
      · simp only [hdiv, hmod, hch, List.get_eq_getElem, List.getElem_cons_succ]
        exact h2
      · simp only [hdiv, hmod, hch, List.get_eq_getElem, List.getElem_cons_succ]
        simp only [List.get_eq_getElem] at heq
        exact heq
      · rw [hdiv, hch, List.take_succ_cons]
        rw [show sumLens ([a, b, c] :: (chunk3 rest).take (j2 / 3)) =
          3 + sumLens ((chunk3 rest).take (j2 / 3)) from by simp [sumLens]]
        omega

/-- Claim C3: titles are processed in chunks of at most
`MAX_CONCURRENT_GENERATIONS = 3`; for every pair of consecutive
batches the trace splits at a `sleep (2 * GENERATION_DELAY)` event —
double the in-batch stagger `GENERATION_DELAY` — with every generation
event of batches up to `k` strictly before it and every generation
event of later batches strictly after it (a hard barrier: in
particular every `callEnd` of batch ≤ k precedes every `callStart` of
batch > k); and every title that passes sanitization does start and
finish a generation call in the trace. -/
theorem claim_C3_batching_barrier_and_delay (titles : List String) (tr : List Ev)
    (h : OrchTrace titles tr) :
    (∀ b ∈ chunk3 titles, b.length ≤ MAX_CONCURRENT_GENERATIONS)
    ∧ (∀ k, k + 1 < (chunk3 titles).length →
        ∃ A B, tr = A ++ Ev.sleepEv (2 * GENERATION_DELAY) :: B
          ∧ (∀ e ∈ A, ∀ i, callIx e = some i → i < 3 * (k + 1))
          ∧ (∀ e ∈ B, ∀ i, callIx e = some i → 3 * (k + 1) ≤ i)
          ∧ (∀ j, j < 3 * (k + 1) → Ev.callEnd j ∈ tr → Ev.callEnd j ∈ A)
          ∧ (∀ j, 3 * (k + 1) ≤ j → Ev.callStart j ∈ tr → Ev.callStart j ∈ B))
    ∧ (∀ (j : Nat) (hj : j < titles.length), validOk (titles.get ⟨j, hj⟩) = true →
        Ev.callStart j ∈ tr ∧ Ev.callEnd j ∈ tr) := by
  refine ⟨fun b hb => chunk3_le titles b hb, ?_, ?_⟩
  · intro k hk
    obtain ⟨A, B, hAB, hA, hB⟩ :=
      bta_split (chunk3 titles) (chunk3 titles) 0 tr [] rfl h k hk
    have hsum := sumLens_take_chunk3 titles k hk
    rw [hsum] at hA hB
    simp only [Nat.zero_add] at hA hB
    have hABgoal : tr = A ++ Ev.sleepEv (2 * GENERATION_DELAY) :: B := by
      rw [hAB, Nat.mul_comm GENERATION_DELAY 2]
    refine ⟨A, B, hABgoal, hA, hB, ?_, ?_⟩
    · intro j hjlt hjtr
      rw [hABgoal] at hjtr
      rcases List.mem_append.mp hjtr with h1 | h2
      · exact h1
      · rcases List.mem_cons.mp h2 with heq | h3
        · exact absurd heq (by simp)
        · exact absurd (hB _ h3 j rfl) (by omega)
    · intro j hjge hjtr
      rw [hABgoal] at hjtr
      rcases List.mem_append.mp hjtr with h1 | h2
      · exact absurd (hA _ h1 j rfl) (by omega)
      · rcases List.mem_cons.mp h2 with heq | h3
        · exact absurd heq (by simp)
        · exact h3
  · intro j hj hv
    obtain ⟨h1, h2, heq, hsum⟩ := chunk3_get_spec titles j hj
    have hpres := bta_presence (chunk3 titles) (chunk3 titles) 0 tr h (j / 3) h1 (j % 3) h2
      (by rw [heq]; exact hv)
    have hidx : 0 + sumLens ((chunk3 titles).take (j / 3)) + j % 3 = j := by
      rw [hsum]
      omega
    rw [hidx] at hpres
    exact hpres

theorem il_cons_nil (ls : List (List Ev)) (out : List Ev) (h : Il ls out) :
    Il ([] :: ls) out := by
  induction h with
  | done ls hls =>
    refine Il.done _ ?_
    intro l hl
    rcases List.mem_cons.mp hl with rfl | h2
    · rfl
    · exact hls _ h2
  | step ls k hk e tl out0 hget hil ih =>
    refine Il.step ([] :: ls) (k + 1) (by simpa using hk) e tl out0 (by simpa using hget) ?_
    have hset : ([] :: ls).set (k + 1) tl = [] :: ls.set k tl := rfl
    rw [hset]
    exact ih

theorem il_prefix (l : List Ev) (ls : List (List Ev)) (out : List Ev) (h : Il ls out) :
    Il (l :: ls) (l ++ out) := by
  induction l with
  | nil => simpa using il_cons_nil ls out h
  | cons e l2 ih =>
    refine Il.step ((e :: l2) :: ls) 0 (by simp) e l2 (l2 ++ out) rfl ?_
    have hset : ((e :: l2) :: ls).set 0 l2 = l2 :: ls := rfl
    rw [hset]
    exact ih

/-- The sequential schedule is one valid interleaving. -/
theorem il_join : ∀ ls : List (List Ev), Il ls ls.flatten
  | [] => Il.done [] (by simp)
  | l :: rest => by simpa using il_prefix l rest rest.flatten (il_join rest)

def c3Titles : List String := ["One", "Two", "Three", "Four"]

/-- The fully sequential trace of `c3Titles`: batch 1's three tasks in
order, the inter-batch sleep, then batch 2's task. -/
def c3Trace : List Ev :=
  (taskTraces 0 0 ["One", "Two", "Three"]).flatten ++
    Ev.sleepEv (GENERATION_DELAY * 2) :: (taskTraces 3 0 ["Four"]).flatten

theorem c3Trace_orch : OrchTrace c3Titles c3Trace := by
  show BatchesTrace (chunk3 c3Titles) 0 (chunk3 c3Titles) c3Trace
  refine ⟨(taskTraces 0 0 ["One", "Two", "Three"]).flatten,
    (taskTraces 3 0 ["Four"]).flatten, il_join _, ?_, ?_⟩
  · refine ⟨(taskTraces 3 0 ["Four"]).flatten, [], il_join _, rfl, ?_⟩
    rw [if_neg (by decide)]
    simp
  · rw [if_pos (by decide)]
    simp [c3Trace]

/-- Witness for claim C3: a concrete two-batch run with its sequential
trace satisfies the trace relation, and the theorem applies to it. -/
theorem claim_C3_batching_barrier_and_delay_witness :
    OrchTrace c3Titles c3Trace
    ∧ (∀ b ∈ chunk3 c3Titles, b.length ≤ MAX_CONCURRENT_GENERATIONS) :=
  ⟨c3Trace_orch, (claim_C3_batching_barrier_and_delay c3Titles c3Trace c3Trace_orch).1⟩

end CodingBook
